import Mathlib

/-!
Verification of the alignment-refinement and CIGAR-normalization core of the
herro repository (src/src/aligners/mod.rs), shallowly embedded in Lean.

Bytes are modelled as natural numbers (the ASCII codes 65 = A, 67 = C,
71 = G, 84 = T).  Run lengths (u32 in the source) are modelled as Nat: all
arithmetic performed by the source on reachable inputs is non-overflowing
and non-underflowing, so Nat coincides with u32 there.  Sequence indexing,
which in Rust is bounds-checked (out of range aborts), is modelled totally
with List.getD; the claims quantify over inputs whose run lengths are
consistent with the sequence lengths, where the two semantics agree.

The imperative in-place loops of fix_cigar are modelled as structurally
recursive list traversals; comments in each definition record the exact
correspondence with the loop state of the source.
-/

namespace Herro

/-- CigarOp from aligners/mod.rs: tagged run-length alignment operation. -/
inductive CigarOp where
  | Match : Nat → CigarOp
  | Mismatch : Nat → CigarOp
  | Insertion : Nat → CigarOp
  | Deletion : Nat → CigarOp
deriving DecidableEq, Repr

namespace CigarOp

/-- CigarOp::reverse: swaps Insertion and Deletion, identity otherwise. -/
def reverse : CigarOp → CigarOp
  | .Insertion l => .Deletion l
  | .Deletion l => .Insertion l
  | op => op

/-- CigarOp::get_length. -/
def get_length : CigarOp → Nat
  | .Match l => l
  | .Mismatch l => l
  | .Insertion l => l
  | .Deletion l => l

/-- CigarOp::with_length: same variant, new run length. -/
def with_length : CigarOp → Nat → CigarOp
  | .Match _, n => .Match n
  | .Mismatch _, n => .Mismatch n
  | .Insertion _, n => .Insertion n
  | .Deletion _, n => .Deletion n

/-- Variant tag, modelling std::mem::discriminant comparisons. -/
def tag : CigarOp → Nat
  | .Match _ => 0
  | .Mismatch _ => 1
  | .Insertion _ => 2
  | .Deletion _ => 3

/-- Does the op match CigarOp::Match(_) | CigarOp::Mismatch(_)? -/
def isMX : CigarOp → Bool
  | .Match _ => true
  | .Mismatch _ => true
  | _ => false

end CigarOp

/-- Strand from the overlaps module (declaration not under src/, fields per
the spec data model and the uses in aligners/mod.rs). -/
inductive Strand where
  | Forward : Strand
  | Reverse : Strand
deriving DecidableEq, Repr

/-- get_proper_cigar from aligners/mod.rs: target perspective returns a
plain copy; query perspective maps CigarOp::reverse over the ops and, for
the Reverse strand, also reverses the op order. -/
def get_proper_cigar (cigar : List CigarOp) (is_target : Bool) (strand : Strand) :
    List CigarOp :=
  if is_target then cigar
  else
    match strand with
    | .Reverse => (cigar.map CigarOp.reverse).reverse
    | .Forward => cigar.map CigarOp.reverse

/-- complement from aligners/mod.rs.  The source aborts on a byte outside
{A, C, G, T}; the model returns 0 there (the involution claim is restricted
to the four-letter alphabet, where the two agree). -/
def complement (base : Nat) : Nat :=
  if base = 65 then 84
  else if base = 67 then 71
  else if base = 71 then 67
  else if base = 84 then 65
  else 0

/-- reverse_complement from aligners/mod.rs: reverse, then complement each
base. -/
def reverse_complement (seq : List Nat) : List Nat :=
  seq.reverse.map complement

/-- Accumulating loop of calculate_accuracy: per-kind length sums
(matches, subs, ins, dels). -/
def accuracyCounts (cigar : List CigarOp) : Nat × Nat × Nat × Nat :=
  cigar.foldl
    (fun acc op =>
      match op with
      | .Match l => (acc.1 + l, acc.2.1, acc.2.2.1, acc.2.2.2)
      | .Mismatch l => (acc.1, acc.2.1 + l, acc.2.2.1, acc.2.2.2)
      | .Insertion l => (acc.1, acc.2.1, acc.2.2.1 + l, acc.2.2.2)
      | .Deletion l => (acc.1, acc.2.1, acc.2.2.1, acc.2.2.2 + l))
    (0, 0, 0, 0)

/-- calculate_accuracy from aligners/mod.rs: matches divided by the total
aligned length.  The source computes the ratio in f32; the model uses exact
rationals (the division 0 / 0, NaN in f32, is 0 here; the empty-CIGAR claim
is stated on the counts, where the two agree). -/
def calculate_accuracy (cigar : List CigarOp) : ℚ :=
  let c := accuracyCounts cigar
  (c.1 : ℚ) / ((c.1 : ℚ) + (c.2.1 : ℚ) + (c.2.2.1 : ℚ) + (c.2.2.2 : ℚ))

/-- AlignmentResult from aligners/mod.rs: a CIGAR plus the four trim
counts. -/
structure AlignmentResult where
  cigar : List CigarOp
  tstart : Nat
  tend : Nat
  qstart : Nat
  qend : Nat

/-- Overlap record (declaration not under src/; fields per the spec data
model and the uses in align_overlaps).  accuracy is stored as the exact
rational of calculate_accuracy. -/
structure Overlap where
  qid : Nat
  tid : Nat
  qstart : Nat
  qend : Nat
  strand : Strand
  tstart : Nat
  tend : Nat
  cigar : Option (List CigarOp)
  accuracy : Option ℚ

/-- Per-overlap body of align_overlaps after the aligner call, translated
from aligners/mod.rs lines 112-128: store the CIGAR, fold the four trim
counts into the overlap coordinates (query trims swapped on the Reverse
strand), and compute the accuracy.  The black-box aligner invocation is
abstracted as the parameter align_result. -/
def align_overlap_step (o : Overlap) (align_result : AlignmentResult) : Overlap :=
  let o1 := { o with cigar := some align_result.cigar }
  let o2 := { o1 with
    tstart := o1.tstart + align_result.tstart,
    tend := o1.tend - align_result.tend }
  let o3 :=
    match o2.strand with
    | .Forward => { o2 with
        qstart := o2.qstart + align_result.qstart,
        qend := o2.qend - align_result.qend }
    | .Reverse => { o2 with
        qstart := o2.qstart + align_result.qend,
        qend := o2.qend - align_result.qstart }
  { o3 with accuracy := some (calculate_accuracy align_result.cigar) }

/-- Shift-length scan of fix_cigar: the while loop bounded by the preceding
run length prev_len that compares, for l = 0, 1, ..., the base l positions
before the indel with the base l positions before its right end, stopping at
the first difference.  Arguments: l is the loop counter, fuel is
prev_len - l (the remaining iterations allowed by the l < prev_len test). -/
def indelShift (s : List Nat) (pos len : Nat) : Nat → Nat → Nat
  | l, 0 => l
  | l, fuel + 1 =>
    if s.getD (pos - 1 - l) 0 = s.getD (pos + len - 1 - l) 0 then
      indelShift s pos len (l + 1) fuel
    else l

/-- Left-alignment pass of fix_cigar (the indexed for loop at lines
184-246), as a structural traversal.  The loop state at index i is: done is
cigar[0..i] reversed (head = cigar[i-1], which a shift may still shrink),
cur is cigar[i], rest is cigar[i+1..], and tpos, qpos are the consumed
prefix counters.  Match/Mismatch advance both counters.  An indel flanked
on both sides by Match/Mismatch (done and rest nonempty with isMX heads)
computes the shift l, and when l > 0 shrinks the previous run, grows the
next run and rewinds both counters by l; either way the counters then
advance past the indel.  An unflanked indel changes nothing — faithfully to
the source, the counters do not advance past it (the advance sits inside
the flanked-only block). -/
def pass1Go (target query : List Nat) :
    List CigarOp → Nat → Nat → CigarOp → List CigarOp → List CigarOp
  | done, _, _, cur, [] => (cur :: done).reverse
  | done, tpos, qpos, cur, next :: rest =>
    match cur with
    | .Match l => pass1Go target query (.Match l :: done) (tpos + l) (qpos + l) next rest
    | .Mismatch l =>
      pass1Go target query (.Mismatch l :: done) (tpos + l) (qpos + l) next rest
    | .Insertion len =>
      match done with
      | prev :: donetl =>
        if prev.isMX && next.isMX then
          let pl := prev.get_length
          let l := indelShift query qpos len 0 pl
          if 0 < l then
            pass1Go target query
              (.Insertion len :: prev.with_length (pl - l) :: donetl)
              (tpos - l) (qpos - l + len)
              (next.with_length (next.get_length + l)) rest
          else
            pass1Go target query (.Insertion len :: prev :: donetl)
              tpos (qpos + len) next rest
        else pass1Go target query (.Insertion len :: prev :: donetl) tpos qpos next rest
      | [] => pass1Go target query [.Insertion len] tpos qpos next rest
    | .Deletion len =>
      match done with
      | prev :: donetl =>
        if prev.isMX && next.isMX then
          let pl := prev.get_length
          let l := indelShift target tpos len 0 pl
          if 0 < l then
            pass1Go target query
              (.Deletion len :: prev.with_length (pl - l) :: donetl)
              (tpos - l + len) (qpos - l)
              (next.with_length (next.get_length + l)) rest
          else
            pass1Go target query (.Deletion len :: prev :: donetl)
              (tpos + len) qpos next rest
        else pass1Go target query (.Deletion len :: prev :: donetl) tpos qpos next rest
      | [] => pass1Go target query [.Deletion len] tpos qpos next rest

/-- The full left-alignment pass over a CIGAR. -/
def pass1 (cigar : List CigarOp) (target query : List Nat) : List CigarOp :=
  match cigar with
  | [] => []
  | op :: rest => pass1Go target query [] 0 0 op rest

/-- Stateful retain closure of fix_cigar (lines 248-276).  While is_start
holds: a positive Match/Mismatch is kept and ends the start phase; a
zero-length Match/Mismatch is dropped with the start phase continuing; a
leading Insertion or Deletion is dropped, its length recorded in qshift or
tshift, ending the start phase.  Past the start phase, an op is kept
exactly when its length is positive.  Returns the retained list and the
final (tshift, qshift). -/
def retainGo (is_start : Bool) (tshift qshift : Nat) :
    List CigarOp → List CigarOp × Nat × Nat
  | [] => ([], tshift, qshift)
  | op :: rest =>
    if is_start then
      match op with
      | .Match l =>
        if 0 < l then
          let r := retainGo false tshift qshift rest
          (op :: r.1, r.2)
        else retainGo true tshift qshift rest
      | .Mismatch l =>
        if 0 < l then
          let r := retainGo false tshift qshift rest
          (op :: r.1, r.2)
        else retainGo true tshift qshift rest
      | .Insertion l => retainGo false tshift l rest
      | .Deletion l => retainGo false l qshift rest
    else
      if 0 < op.get_length then
        let r := retainGo false tshift qshift rest
        (op :: r.1, r.2)
      else retainGo false tshift qshift rest

/-- Run-coalescing pass of fix_cigar (lines 278-289), with cur playing
cigar[i] as accumulated so far: equal-tag neighbours are merged by
with_length (keeping the left op's variant), unequal tags emit cur. -/
def coalesceGo : CigarOp → List CigarOp → List CigarOp
  | cur, [] => [cur]
  | cur, next :: rest =>
    if cur.tag = next.tag then
      coalesceGo (cur.with_length (cur.get_length + next.get_length)) rest
    else cur :: coalesceGo next rest

/-- Run coalescing over a whole CIGAR. -/
def coalesce : List CigarOp → List CigarOp
  | [] => []
  | op :: rest => coalesceGo op rest

/-- fix_cigar from aligners/mod.rs: the left-alignment pass, the retain
pass and the coalescing pass in order.  Returns the rewritten CIGAR
together with (tshift, qshift). -/
def fix_cigar (cigar : List CigarOp) (target query : List Nat) :
    List CigarOp × Nat × Nat :=
  let shifted := pass1 cigar target query
  let retained := retainGo true 0 0 shifted
  (coalesce retained.1, retained.2)

/-- Number of target positions an op consumes (Match, Mismatch and
Deletion consume their run length; Insertion consumes none). -/
def tContrib : CigarOp → Nat
  | .Match l => l
  | .Mismatch l => l
  | .Insertion _ => 0
  | .Deletion l => l

/-- Number of query positions an op consumes (Match, Mismatch and
Insertion consume their run length; Deletion consumes none). -/
def qContrib : CigarOp → Nat
  | .Match l => l
  | .Mismatch l => l
  | .Insertion l => l
  | .Deletion _ => 0

/-- Sum of the run lengths that consume target positions. -/
def tExtent (cigar : List CigarOp) : Nat := (cigar.map tContrib).sum

/-- Sum of the run lengths that consume query positions. -/
def qExtent (cigar : List CigarOp) : Nat := (cigar.map qContrib).sum

/-- Target bytes of the first fix_cigar test. -/
def testTarget1 : List Nat :=
  [84, 84, 84, 84, 71, 84, 84, 84, 84, 84, 84, 84, 84, 84, 84, 67, 84, 84, 84,
   84, 84, 84, 84, 84, 84, 84, 84, 84, 84, 84, 84, 84, 84, 84, 84, 71, 67, 84]

/-- Query bytes of the first fix_cigar test. -/
def testQuery1 : List Nat :=
  [84, 84, 84, 84, 71, 84, 84, 84, 84, 84, 84, 84, 84, 84, 84, 67, 84, 84, 84,
   84, 84, 84, 84, 84, 84, 84, 84, 84, 84, 84, 84, 71, 67, 84]

/-- Target bytes of the second fix_cigar test. -/
def testTarget2 : List Nat :=
  [65, 71, 67, 65, 65, 65, 65, 65, 65, 65, 65, 65, 65, 65, 65, 65, 65, 65, 71,
   65, 65, 65, 65, 65, 65, 65, 65, 65, 65, 67, 65, 65, 65, 65]

/-- Query bytes of the second fix_cigar test. -/
def testQuery2 : List Nat :=
  [65, 71, 67, 65, 65, 65, 65, 65, 65, 65, 65, 65, 65, 65, 65, 65, 65, 65, 65,
   65, 65, 65, 71, 65, 65, 65, 65, 65, 65, 65, 65, 65, 65, 67, 65, 65, 65, 65]

/-- Target bytes of the third fix_cigar test. -/
def testTarget3 : List Nat := [67, 65, 67, 67, 65, 71, 71, 67, 67, 65]

/-- Query bytes of the third fix_cigar test. -/
def testQuery3 : List Nat := [67, 65, 67, 67, 65, 71, 67, 67, 65]

/-- C1: the three concrete normalization scenarios of the repository's test
suite: fix_cigar rewrites [Match 31, Deletion 4, Match 3] to
[Match 16, Deletion 4, Match 18] on the first target/query pair,
[Match 18, Insertion 4, Match 16] to [Match 3, Insertion 4, Match 31] on
the second, and [Match 6, Deletion 1, Match 3] to
[Match 5, Deletion 1, Match 4] on the third. -/
theorem fix_cigar_concrete_scenarios :
    (fix_cigar [.Match 31, .Deletion 4, .Match 3] testTarget1 testQuery1).1 =
      [.Match 16, .Deletion 4, .Match 18] ∧
    (fix_cigar [.Match 18, .Insertion 4, .Match 16] testTarget2 testQuery2).1 =
      [.Match 3, .Insertion 4, .Match 31] ∧
    (fix_cigar [.Match 6, .Deletion 1, .Match 3] testTarget3 testQuery3).1 =
      [.Match 5, .Deletion 1, .Match 4] := by
  refine ⟨by decide, by decide, by decide⟩

/-- CigarOp.reverse is an involution (case check). -/
theorem CigarOp.reverse_reverse (op : CigarOp) : op.reverse.reverse = op := by
  cases op <;> rfl

/-- C5: get_proper_cigar returns an unmodified copy for the target
perspective; for the query perspective it applies CigarOp.reverse to every
op — swapping Insertion and Deletion and fixing Match and Mismatch — and
reverses the op order exactly when the strand is Reverse. -/
theorem get_proper_cigar_spec :
    (∀ (cigar : List CigarOp) (strand : Strand),
      get_proper_cigar cigar true strand = cigar ∧
      get_proper_cigar cigar false Strand.Forward = cigar.map CigarOp.reverse ∧
      get_proper_cigar cigar false Strand.Reverse =
        (cigar.map CigarOp.reverse).reverse) ∧
    ∀ l : Nat,
      CigarOp.reverse (.Insertion l) = CigarOp.Deletion l ∧
      CigarOp.reverse (.Deletion l) = CigarOp.Insertion l ∧
      CigarOp.reverse (.Match l) = CigarOp.Match l ∧
      CigarOp.reverse (.Mismatch l) = CigarOp.Mismatch l := by
  exact ⟨fun c s => ⟨rfl, rfl, rfl⟩, fun l => ⟨rfl, rfl, rfl, rfl⟩⟩

/-- C6 counterexample: the round trip exactly as the claim composes it —
query perspective first, then target perspective with the same strand —
does not reproduce the original CIGAR, because the target-perspective call
returns its input unchanged.  Witnessed at the one-op CIGAR [Insertion 1]
on the Forward strand. -/
theorem get_proper_cigar_roundtrip_cex :
    get_proper_cigar
        (get_proper_cigar [CigarOp.Insertion 1] false Strand.Forward)
        true Strand.Forward ≠ [CigarOp.Insertion 1] := by
  decide

/-- C6 amended: the query-perspective transform is an involution — applying
get_proper_cigar with the query perspective twice, with the same strand,
reproduces the original CIGAR (transforming the query-relative CIGAR back
to the target frame is the same op-wise swap with the same order flip). -/
theorem get_proper_cigar_roundtrip (cigar : List CigarOp) (strand : Strand) :
    get_proper_cigar (get_proper_cigar cigar false strand) false strand = cigar := by
  cases strand <;>
    simp [get_proper_cigar, List.map_reverse, List.map_map,
      Function.comp_def, CigarOp.reverse_reverse]

/-- C7: the per-overlap coordinate folding of align_overlaps: the target
coordinates absorb the target trims unconditionally, while the query trims
are applied directly on the Forward strand and swapped (start trim to qend,
end trim to qstart) on the Reverse strand. -/
theorem align_overlaps_trim_folding :
    ∀ (o : Overlap) (r : AlignmentResult),
      (align_overlap_step o r).tstart = o.tstart + r.tstart ∧
      (align_overlap_step o r).tend = o.tend - r.tend ∧
      (align_overlap_step o r).qstart =
        (match o.strand with
          | Strand.Forward => o.qstart + r.qstart
          | Strand.Reverse => o.qstart + r.qend) ∧
      (align_overlap_step o r).qend =
        (match o.strand with
          | Strand.Forward => o.qend - r.qend
          | Strand.Reverse => o.qend - r.qstart) := by
  intro o r
  cases h : o.strand <;> simp [align_overlap_step, h]

/-- C8: reverse_complement is an involution on sequences over the
four-letter alphabet {A, C, G, T} (ASCII 65, 67, 71, 84). -/
theorem reverse_complement_involution (s : List Nat)
    (h : ∀ b ∈ s, b = 65 ∨ b = 67 ∨ b = 71 ∨ b = 84) :
    reverse_complement (reverse_complement s) = s := by
  have key : ∀ b, b = 65 ∨ b = 67 ∨ b = 71 ∨ b = 84 →
      complement (complement b) = b := by
    rintro b (rfl | rfl | rfl | rfl) <;> rfl
  unfold reverse_complement
  simp only [List.map_reverse, List.reverse_reverse, List.map_map]
  have hmap : List.map (complement ∘ complement) s = List.map id s :=
    List.map_congr_left (fun x hx => key x (h x hx))
  rw [hmap, List.map_id]

/-- Witness for C8 at the concrete sequence ACGT. -/
theorem reverse_complement_involution_witness :
    (∀ b ∈ [65, 67, 71, 84], b = 65 ∨ b = 67 ∨ b = 71 ∨ b = 84) ∧
    reverse_complement (reverse_complement [65, 67, 71, 84]) = [65, 67, 71, 84] :=
  ⟨by decide, reverse_complement_involution [65, 67, 71, 84] (by decide)⟩

/-- C9: calculate_accuracy sums run lengths by kind into matches,
mismatches, insertions and deletions and returns matches over their total;
the accuracy of [Match 90, Mismatch 5, Insertion 3, Deletion 2] is 9/10,
and the empty CIGAR yields the degenerate division 0 / 0 (all four counts
zero). -/
theorem calculate_accuracy_spec :
    (∀ cigar : List CigarOp,
      accuracyCounts cigar =
        ((cigar.map fun op => match op with | .Match l => l | _ => 0).sum,
         (cigar.map fun op => match op with | .Mismatch l => l | _ => 0).sum,
         (cigar.map fun op => match op with | .Insertion l => l | _ => 0).sum,
         (cigar.map fun op => match op with | .Deletion l => l | _ => 0).sum) ∧
      calculate_accuracy cigar =
        ((accuracyCounts cigar).1 : ℚ) /
          (((accuracyCounts cigar).1 : ℚ) + ((accuracyCounts cigar).2.1 : ℚ) +
            ((accuracyCounts cigar).2.2.1 : ℚ) + ((accuracyCounts cigar).2.2.2 : ℚ))) ∧
    calculate_accuracy [.Match 90, .Mismatch 5, .Insertion 3, .Deletion 2] = 9 / 10 ∧
    accuracyCounts [] = (0, 0, 0, 0) := by
  refine ⟨fun cigar => ⟨?_, rfl⟩, by norm_num [calculate_accuracy, accuracyCounts], rfl⟩
  suffices h : ∀ a b c d : Nat,
      cigar.foldl
        (fun acc op =>
          match op with
          | .Match l => (acc.1 + l, acc.2.1, acc.2.2.1, acc.2.2.2)
          | .Mismatch l => (acc.1, acc.2.1 + l, acc.2.2.1, acc.2.2.2)
          | .Insertion l => (acc.1, acc.2.1, acc.2.2.1 + l, acc.2.2.2)
          | .Deletion l => (acc.1, acc.2.1, acc.2.2.1, acc.2.2.2 + l))
        (a, b, c, d) =
        (a + (cigar.map fun op => match op with | .Match l => l | _ => 0).sum,
         b + (cigar.map fun op => match op with | .Mismatch l => l | _ => 0).sum,
         c + (cigar.map fun op => match op with | .Insertion l => l | _ => 0).sum,
         d + (cigar.map fun op => match op with | .Deletion l => l | _ => 0).sum) by
    simpa [accuracyCounts] using h 0 0 0 0
  induction cigar with
  | nil => simp
  | cons op rest ih =>
    intro a b c d
    cases op <;> simp [List.foldl_cons, ih] <;> ring_nf

/-- C2 counterexample: fix_cigar is not idempotent.  On target A, query A
(lengths consistent with the CIGAR), the input [Insertion 1, Deletion 1]
normalizes to [Deletion 1], and normalizing that again strips the now
leading deletion, giving []. -/
theorem fix_cigar_not_idempotent_cex :
    (fix_cigar (fix_cigar [CigarOp.Insertion 1, CigarOp.Deletion 1] [65] [65]).1
        [65] [65]).1 ≠
      (fix_cigar [CigarOp.Insertion 1, CigarOp.Deletion 1] [65] [65]).1 ∧
    tExtent [CigarOp.Insertion 1, CigarOp.Deletion 1] = ([65] : List Nat).length ∧
    qExtent [CigarOp.Insertion 1, CigarOp.Deletion 1] = ([65] : List Nat).length := by
  refine ⟨by decide, by decide, by decide⟩

/-! Helper lemmas about the three passes. -/

/-- Boolean test for a positive run length (the keep condition of the
retain pass once the start phase is over). -/
def posLen (op : CigarOp) : Bool := decide (0 < op.get_length)

/-- Boolean test for a zero-length Match/Mismatch (the ops the retain pass
drops while staying in the start phase). -/
def zeroMX (op : CigarOp) : Bool := op.isMX && op.get_length == 0

theorem CigarOp.tag_with_length (op : CigarOp) (n : Nat) :
    (op.with_length n).tag = op.tag := by
  cases op <;> rfl

theorem CigarOp.get_length_with_length (op : CigarOp) (n : Nat) :
    (op.with_length n).get_length = n := by
  cases op <;> rfl

theorem CigarOp.isMX_with_length (op : CigarOp) (n : Nat) :
    (op.with_length n).isMX = op.isMX := by
  cases op <;> rfl

theorem indelShift_le (s : List Nat) (pos len : Nat) :
    ∀ fuel l, indelShift s pos len l fuel ≤ l + fuel := by
  intro fuel
  induction fuel with
  | zero => intro l; simp [indelShift]
  | succ n ih =>
    intro l
    rw [indelShift]
    split
    · exact le_trans (ih (l + 1)) (by omega)
    · omega

/-- Once out of the start phase, the retain closure is a plain positive
length filter and leaves the shifts untouched. -/
theorem retain_false_eq (ts qs : Nat) :
    ∀ x : List CigarOp, retainGo false ts qs x = (x.filter posLen, ts, qs) := by
  intro x
  induction x with
  | nil => rfl
  | cons op rest ih =>
    by_cases h : 0 < op.get_length
    · simp [retainGo, h, ih, List.filter_cons, posLen]
    · simp [retainGo, h, ih, List.filter_cons, posLen]

/-- Characterization of the whole retain pass: drop the leading zero-length
Match/Mismatch ops; then a leading Insertion or Deletion is removed with
its length recorded in qshift or tshift respectively, while any other
leading op is kept; the remainder is filtered to positive lengths. -/
theorem retain_char (ts qs : Nat) :
    ∀ x : List CigarOp,
      retainGo true ts qs x =
        match x.dropWhile zeroMX with
        | [] => ([], ts, qs)
        | .Insertion l :: rest => (rest.filter posLen, ts, l)
        | .Deletion l :: rest => (rest.filter posLen, l, qs)
        | op :: rest => (op :: rest.filter posLen, ts, qs) := by
  intro x
  induction x with
  | nil => rfl
  | cons op rest ih =>
    cases op with
    | Match l =>
      by_cases h : 0 < l
      · have hdrop : (CigarOp.Match l :: rest).dropWhile zeroMX =
            CigarOp.Match l :: rest :=
          List.dropWhile_cons_of_neg (by
            simp [zeroMX, CigarOp.isMX, CigarOp.get_length]; omega)
        rw [hdrop]
        simp [retainGo, h, retain_false_eq]
      · have hz : l = 0 := by omega
        subst hz
        have hdrop : (CigarOp.Match 0 :: rest).dropWhile zeroMX =
            rest.dropWhile zeroMX :=
          List.dropWhile_cons_of_pos (by
            simp [zeroMX, CigarOp.isMX, CigarOp.get_length])
        rw [hdrop]
        simpa [retainGo] using ih
    | Mismatch l =>
      by_cases h : 0 < l
      · have hdrop : (CigarOp.Mismatch l :: rest).dropWhile zeroMX =
            CigarOp.Mismatch l :: rest :=
          List.dropWhile_cons_of_neg (by
            simp [zeroMX, CigarOp.isMX, CigarOp.get_length]; omega)
        rw [hdrop]
        simp [retainGo, h, retain_false_eq]
      · have hz : l = 0 := by omega
        subst hz
        have hdrop : (CigarOp.Mismatch 0 :: rest).dropWhile zeroMX =
            rest.dropWhile zeroMX :=
          List.dropWhile_cons_of_pos (by
            simp [zeroMX, CigarOp.isMX, CigarOp.get_length])
        rw [hdrop]
        simpa [retainGo] using ih
    | Insertion l =>
      have hdrop : (CigarOp.Insertion l :: rest).dropWhile zeroMX =
          CigarOp.Insertion l :: rest :=
        List.dropWhile_cons_of_neg (by simp [zeroMX, CigarOp.isMX])
      rw [hdrop]
      simp [retainGo, retain_false_eq]
    | Deletion l =>
      have hdrop : (CigarOp.Deletion l :: rest).dropWhile zeroMX =
          CigarOp.Deletion l :: rest :=
        List.dropWhile_cons_of_neg (by simp [zeroMX, CigarOp.isMX])
      rw [hdrop]
      simp [retainGo, retain_false_eq]

/-! Coalescing-pass lemmas. -/

/-- The coalescing accumulator always emits a nonempty list whose head has
the accumulator's tag. -/
theorem coalesceGo_head_tag :
    ∀ (rest : List CigarOp) (cur : CigarOp),
      ∃ h t, coalesceGo cur rest = h :: t ∧ h.tag = cur.tag := by
  intro rest
  induction rest with
  | nil => exact fun cur => ⟨cur, [], rfl, rfl⟩
  | cons next r ih =>
    intro cur
    by_cases h : cur.tag = next.tag
    · rw [coalesceGo, if_pos h]
      obtain ⟨hh, tt, heq, htag⟩ := ih (cur.with_length (cur.get_length + next.get_length))
      exact ⟨hh, tt, heq, htag.trans (CigarOp.tag_with_length _ _)⟩
    · exact ⟨cur, coalesceGo next r, by rw [coalesceGo, if_neg h], rfl⟩

/-- After coalescing, no two adjacent ops share a tag. -/
theorem coalesceGo_chain :
    ∀ (rest : List CigarOp) (cur : CigarOp),
      (coalesceGo cur rest).Chain' (fun a b => a.tag ≠ b.tag) := by
  intro rest
  induction rest with
  | nil => intro cur; simp [coalesceGo]
  | cons next r ih =>
    intro cur
    by_cases h : cur.tag = next.tag
    · rw [coalesceGo, if_pos h]; exact ih _
    · rw [coalesceGo, if_neg h]
      refine List.chain'_cons'.2 ⟨?_, ih next⟩
      intro y hy
      obtain ⟨hh, tt, heq, htag⟩ := coalesceGo_head_tag r next
      rw [heq] at hy
      simp only [List.head?_cons, Option.mem_def, Option.some.injEq] at hy
      rw [hy] at htag
      rw [htag]
      exact h

/-- Coalescing keeps every run length positive when the input runs are
positive. -/
theorem coalesceGo_pos :
    ∀ (rest : List CigarOp) (cur : CigarOp),
      0 < cur.get_length → (∀ op ∈ rest, 0 < op.get_length) →
      ∀ op ∈ coalesceGo cur rest, 0 < op.get_length := by
  intro rest
  induction rest with
  | nil =>
    intro cur hc _ op hop
    simp only [coalesceGo, List.mem_singleton] at hop
    exact hop ▸ hc
  | cons next r ih =>
    intro cur hc hrest op hop
    by_cases h : cur.tag = next.tag
    · rw [coalesceGo, if_pos h] at hop
      refine ih _ ?_ (fun x hx => hrest x (by simp [hx])) op hop
      rw [CigarOp.get_length_with_length]
      omega
    · rw [coalesceGo, if_neg h] at hop
      rcases List.mem_cons.1 hop with rfl | hop
      · exact hc
      · exact ih next (hrest next (by simp)) (fun x hx => hrest x (by simp [hx])) op hop

/-- Coalescing never lengthens the list. -/
theorem coalesceGo_length_le :
    ∀ (rest : List CigarOp) (cur : CigarOp),
      (coalesceGo cur rest).length ≤ rest.length + 1 := by
  intro rest
  induction rest with
  | nil => intro cur; simp [coalesceGo]
  | cons next r ih =>
    intro cur
    by_cases h : cur.tag = next.tag
    · rw [coalesceGo, if_pos h]
      exact le_trans (ih _) (by simp)
    · rw [coalesceGo, if_neg h]
      simpa using ih next

/-- On a list with no two adjacent equal tags, coalescing is the
identity. -/
theorem coalesceGo_of_chain :
    ∀ (rest : List CigarOp) (cur : CigarOp),
      (cur :: rest).Chain' (fun a b => a.tag ≠ b.tag) →
      coalesceGo cur rest = cur :: rest := by
  intro rest
  induction rest with
  | nil => intro cur _; rfl
  | cons next r ih =>
    intro cur hchain
    rw [List.chain'_cons] at hchain
    rw [coalesceGo, if_neg hchain.1, ih next hchain.2]

/-- A generic weight sum over a CIGAR.  Instantiated with tContrib and
qContrib below. -/
def wsum (w : CigarOp → Nat) (cigar : List CigarOp) : Nat := (cigar.map w).sum

theorem wsum_nil (w : CigarOp → Nat) : wsum w [] = 0 := rfl

theorem wsum_cons (w : CigarOp → Nat) (op : CigarOp) (l : List CigarOp) :
    wsum w (op :: l) = w op + wsum w l := by
  simp [wsum]

theorem wsum_append (w : CigarOp → Nat) (l₁ l₂ : List CigarOp) :
    wsum w (l₁ ++ l₂) = wsum w l₁ + wsum w l₂ := by
  simp [wsum]

theorem wsum_reverse (w : CigarOp → Nat) (l : List CigarOp) :
    wsum w l.reverse = wsum w l := by
  simp [wsum, List.sum_reverse]

/-- Coalescing preserves any weight that is additive on a merged pair of
equal-tag ops. -/
theorem coalesceGo_wsum (w : CigarOp → Nat)
    (hmerge : ∀ a b : CigarOp, a.tag = b.tag →
      w (a.with_length (a.get_length + b.get_length)) = w a + w b) :
    ∀ (rest : List CigarOp) (cur : CigarOp),
      wsum w (coalesceGo cur rest) = w cur + wsum w rest := by
  intro rest
  induction rest with
  | nil => intro cur; simp [coalesceGo, wsum]
  | cons next r ih =>
    intro cur
    by_cases h : cur.tag = next.tag
    · rw [coalesceGo, if_pos h, ih, hmerge cur next h, wsum_cons]
      omega
    · rw [coalesceGo, if_neg h, wsum_cons, ih, wsum_cons]

/-- A weight that vanishes on zero-length ops is preserved by the positive
length filter. -/
theorem filter_posLen_wsum (w : CigarOp → Nat)
    (hzero : ∀ op : CigarOp, op.get_length = 0 → w op = 0) :
    ∀ l : List CigarOp, wsum w (l.filter posLen) = wsum w l := by
  intro l
  induction l with
  | nil => rfl
  | cons op rest ih =>
    by_cases h : 0 < op.get_length
    · rw [List.filter_cons_of_pos (by simp [posLen, h]), wsum_cons, wsum_cons, ih]
    · rw [List.filter_cons_of_neg (by simp [posLen]; omega), wsum_cons, ih,
        hzero op (by omega)]
      omega

/-- A weight vanishing on every element makes the weight sum vanish. -/
theorem wsum_eq_zero (w : CigarOp → Nat) :
    ∀ l : List CigarOp, (∀ op ∈ l, w op = 0) → wsum w l = 0 := by
  intro l
  induction l with
  | nil => intro _; rfl
  | cons a t iht =>
    intro hall
    rw [wsum_cons, hall a (by simp), iht (fun x hx => hall x (by simp [hx]))]

/-- A weight that vanishes on zero-length ops is preserved by dropping the
leading zero-length Match/Mismatch ops. -/
theorem dropWhile_zeroMX_wsum (w : CigarOp → Nat)
    (hzero : ∀ op : CigarOp, op.get_length = 0 → w op = 0) (l : List CigarOp) :
    wsum w (l.dropWhile zeroMX) = wsum w l := by
  conv_rhs => rw [← List.takeWhile_append_dropWhile (p := zeroMX) (l := l)]
  rw [wsum_append]
  have hz0 : wsum w (l.takeWhile zeroMX) = 0 := by
    refine wsum_eq_zero w _ ?_
    intro op hop
    have hz := List.mem_takeWhile_imp hop
    simp only [zeroMX, Bool.and_eq_true, beq_iff_eq] at hz
    exact hzero op hz.2
  omega

/-! Left-alignment-pass invariants: the pass permutes run length between
neighbouring runs but never changes the sequence of op kinds, and it
preserves the per-sequence consumed extents. -/

/-- The left-alignment pass preserves the sequence of op tags (the loop
only rewrites lengths via with_length). -/
theorem pass1Go_tags (target query : List Nat) :
    ∀ (rest : List CigarOp) (done : List CigarOp) (tp qp : Nat) (cur : CigarOp),
      (pass1Go target query done tp qp cur rest).map CigarOp.tag =
        (done.map CigarOp.tag).reverse ++ CigarOp.tag cur :: rest.map CigarOp.tag := by
  intro rest
  induction rest with
  | nil =>
    intro done tp qp cur
    simp [pass1Go]
  | cons next r ih =>
    intro done tp qp cur
    cases cur with
    | Match l => rw [pass1Go]; rw [ih]; simp
    | Mismatch l => rw [pass1Go]; rw [ih]; simp
    | Insertion len =>
      cases done with
      | nil => rw [pass1Go]; rw [ih]; simp
      | cons prev donetl =>
        rw [pass1Go]
        by_cases hf : prev.isMX && next.isMX
        · rw [if_pos hf]
          by_cases hl : 0 < indelShift query qp len 0 prev.get_length
          · simp only [if_pos hl]
            rw [ih]
            simp [CigarOp.tag_with_length]
          · simp only [if_neg hl]
            rw [ih]
            simp
        · rw [if_neg hf, ih]
          simp
    | Deletion len =>
      cases done with
      | nil => rw [pass1Go]; rw [ih]; simp
      | cons prev donetl =>
        rw [pass1Go]
        by_cases hf : prev.isMX && next.isMX
        · rw [if_pos hf]
          by_cases hl : 0 < indelShift target tp len 0 prev.get_length
          · simp only [if_pos hl]
            rw [ih]
            simp [CigarOp.tag_with_length]
          · simp only [if_neg hl]
            rw [ih]
            simp
        · rw [if_neg hf, ih]
          simp

/-- The left-alignment pass preserves any weight that reads off the run
length on Match/Mismatch ops and ignores length on the others only through
the op itself (the pass rewrites lengths only on Match/Mismatch ops). -/
theorem pass1Go_wsum (target query : List Nat) (w : CigarOp → Nat)
    (hw : ∀ (op : CigarOp) (n : Nat), op.isMX = true → w (op.with_length n) = n)
    (hw2 : ∀ op : CigarOp, op.isMX = true → w op = op.get_length) :
    ∀ (rest : List CigarOp) (done : List CigarOp) (tp qp : Nat) (cur : CigarOp),
      wsum w (pass1Go target query done tp qp cur rest) =
        wsum w done + w cur + wsum w rest := by
  intro rest
  induction rest with
  | nil =>
    intro done tp qp cur
    rw [pass1Go, wsum_reverse, wsum_cons, wsum_nil]
    omega
  | cons next r ih =>
    intro done tp qp cur
    cases cur with
    | Match l => rw [pass1Go, ih, wsum_cons, wsum_cons]; omega
    | Mismatch l => rw [pass1Go, ih, wsum_cons, wsum_cons]; omega
    | Insertion len =>
      cases done with
      | nil => rw [pass1Go, ih, wsum_cons, wsum_cons, wsum_nil]; omega
      | cons prev donetl =>
        rw [pass1Go]
        by_cases hf : prev.isMX && next.isMX
        · rw [if_pos hf]
          obtain ⟨hp, hn⟩ := Bool.and_eq_true_iff.1 hf
          by_cases hl : 0 < indelShift query qp len 0 prev.get_length
          · simp only [if_pos hl]
            rw [ih]
            simp only [wsum_cons]
            rw [hw prev _ hp, hw next _ hn, hw2 prev hp, hw2 next hn]
            have hle : indelShift query qp len 0 prev.get_length ≤ prev.get_length := by
              have := indelShift_le query qp len prev.get_length 0
              omega
            omega
          · simp only [if_neg hl]
            rw [ih]
            simp only [wsum_cons]
            omega
        · rw [if_neg hf, ih]
          simp only [wsum_cons]
          omega
    | Deletion len =>
      cases done with
      | nil => rw [pass1Go, ih, wsum_cons, wsum_cons, wsum_nil]; omega
      | cons prev donetl =>
        rw [pass1Go]
        by_cases hf : prev.isMX && next.isMX
        · rw [if_pos hf]
          obtain ⟨hp, hn⟩ := Bool.and_eq_true_iff.1 hf
          by_cases hl : 0 < indelShift target tp len 0 prev.get_length
          · simp only [if_pos hl]
            rw [ih]
            simp only [wsum_cons]
            rw [hw prev _ hp, hw next _ hn, hw2 prev hp, hw2 next hn]
            have hle : indelShift target tp len 0 prev.get_length ≤ prev.get_length := by
              have := indelShift_le target tp len prev.get_length 0
              omega
            omega
          · simp only [if_neg hl]
            rw [ih]
            simp only [wsum_cons]
            omega
        · rw [if_neg hf, ih]
          simp only [wsum_cons]
          omega

theorem pass1_tags (cigar : List CigarOp) (target query : List Nat) :
    (pass1 cigar target query).map CigarOp.tag = cigar.map CigarOp.tag := by
  cases cigar with
  | nil => rfl
  | cons op rest => rw [pass1, pass1Go_tags]; simp

theorem pass1_length (cigar : List CigarOp) (target query : List Nat) :
    (pass1 cigar target query).length = cigar.length := by
  have h := congrArg List.length (pass1_tags cigar target query)
  simpa using h

theorem pass1_wsum (target query : List Nat) (w : CigarOp → Nat)
    (hw : ∀ (op : CigarOp) (n : Nat), op.isMX = true → w (op.with_length n) = n)
    (hw2 : ∀ op : CigarOp, op.isMX = true → w op = op.get_length)
    (cigar : List CigarOp) :
    wsum w (pass1 cigar target query) = wsum w cigar := by
  cases cigar with
  | nil => rfl
  | cons op rest =>
    rw [pass1, pass1Go_wsum target query w hw hw2, wsum_cons, wsum_nil]
    omega

/-! Instantiation of the weight lemmas at the two extents. -/

theorem tContrib_with_length (op : CigarOp) (n : Nat) (h : op.isMX = true) :
    tContrib (op.with_length n) = n := by
  cases op <;> simp [CigarOp.isMX] at h ⊢ <;> rfl

theorem qContrib_with_length (op : CigarOp) (n : Nat) (h : op.isMX = true) :
    qContrib (op.with_length n) = n := by
  cases op <;> simp [CigarOp.isMX] at h ⊢ <;> rfl

theorem tContrib_isMX (op : CigarOp) (h : op.isMX = true) :
    tContrib op = op.get_length := by
  cases op <;> simp [CigarOp.isMX] at h ⊢ <;> rfl

theorem qContrib_isMX (op : CigarOp) (h : op.isMX = true) :
    qContrib op = op.get_length := by
  cases op <;> simp [CigarOp.isMX] at h ⊢ <;> rfl

theorem tContrib_of_zero (op : CigarOp) (h : op.get_length = 0) : tContrib op = 0 := by
  cases op <;> simp [CigarOp.get_length] at h <;> simp [tContrib, h]

theorem qContrib_of_zero (op : CigarOp) (h : op.get_length = 0) : qContrib op = 0 := by
  cases op <;> simp [CigarOp.get_length] at h <;> simp [qContrib, h]

theorem tContrib_merge (a b : CigarOp) (h : a.tag = b.tag) :
    tContrib (a.with_length (a.get_length + b.get_length)) = tContrib a + tContrib b := by
  cases a <;> cases b <;>
    simp_all [CigarOp.tag, CigarOp.with_length, CigarOp.get_length, tContrib]

theorem qContrib_merge (a b : CigarOp) (h : a.tag = b.tag) :
    qContrib (a.with_length (a.get_length + b.get_length)) = qContrib a + qContrib b := by
  cases a <;> cases b <;>
    simp_all [CigarOp.tag, CigarOp.with_length, CigarOp.get_length, qContrib]

theorem coalesce_wsum (w : CigarOp → Nat)
    (hmerge : ∀ a b : CigarOp, a.tag = b.tag →
      w (a.with_length (a.get_length + b.get_length)) = w a + w b)
    (l : List CigarOp) : wsum w (coalesce l) = wsum w l := by
  cases l with
  | nil => rfl
  | cons op rest => rw [coalesce, coalesceGo_wsum w hmerge, wsum_cons]

/-- C10: fix_cigar conserves the consumed extents up to the returned
shifts: Match+Mismatch+Deletion length of the output plus targetShift
equals that sum over the input, and Match+Mismatch+Insertion length of the
output plus queryShift equals that sum over the input. -/
theorem fix_cigar_extent_conservation :
    ∀ (cigar : List CigarOp) (target query : List Nat),
      tExtent (fix_cigar cigar target query).1 + (fix_cigar cigar target query).2.1 =
        tExtent cigar ∧
      qExtent (fix_cigar cigar target query).1 + (fix_cigar cigar target query).2.2 =
        qExtent cigar := by
  intro c t q
  have htw : wsum tContrib (pass1 c t q) = wsum tContrib c :=
    pass1_wsum t q tContrib tContrib_with_length tContrib_isMX c
  have hqw : wsum qContrib (pass1 c t q) = wsum qContrib c :=
    pass1_wsum t q qContrib qContrib_with_length qContrib_isMX c
  have htd : wsum tContrib ((pass1 c t q).dropWhile zeroMX) = wsum tContrib c := by
    rw [dropWhile_zeroMX_wsum tContrib tContrib_of_zero, htw]
  have hqd : wsum qContrib ((pass1 c t q).dropWhile zeroMX) = wsum qContrib c := by
    rw [dropWhile_zeroMX_wsum qContrib qContrib_of_zero, hqw]
  have hfc : fix_cigar c t q =
      (coalesce (retainGo true 0 0 (pass1 c t q)).1,
        (retainGo true 0 0 (pass1 c t q)).2) := rfl
  rw [hfc, retain_char]
  cases hdrop : (pass1 c t q).dropWhile zeroMX with
  | nil =>
    rw [hdrop] at htd hqd
    constructor
    · show tExtent (coalesce []) + 0 = tExtent c
      have h0 : tExtent (coalesce []) = 0 := rfl
      have hc : tExtent c = wsum tContrib c := rfl
      have h1 : wsum tContrib ([] : List CigarOp) = 0 := rfl
      omega
    · show qExtent (coalesce []) + 0 = qExtent c
      have h0 : qExtent (coalesce []) = 0 := rfl
      have hc : qExtent c = wsum qContrib c := rfl
      have h1 : wsum qContrib ([] : List CigarOp) = 0 := rfl
      omega
  | cons op rest =>
    rw [hdrop] at htd hqd
    cases op with
    | Match l =>
      constructor
      · show tExtent (coalesce (CigarOp.Match l :: rest.filter posLen)) + 0 = tExtent c
        rw [show tExtent (coalesce (CigarOp.Match l :: rest.filter posLen)) =
            wsum tContrib (coalesce (CigarOp.Match l :: rest.filter posLen)) from rfl,
          coalesce_wsum tContrib tContrib_merge, wsum_cons,
          filter_posLen_wsum tContrib tContrib_of_zero]
        rw [wsum_cons] at htd
        have : tExtent c = wsum tContrib c := rfl
        omega
      · show qExtent (coalesce (CigarOp.Match l :: rest.filter posLen)) + 0 = qExtent c
        rw [show qExtent (coalesce (CigarOp.Match l :: rest.filter posLen)) =
            wsum qContrib (coalesce (CigarOp.Match l :: rest.filter posLen)) from rfl,
          coalesce_wsum qContrib qContrib_merge, wsum_cons,
          filter_posLen_wsum qContrib qContrib_of_zero]
        rw [wsum_cons] at hqd
        have : qExtent c = wsum qContrib c := rfl
        omega
    | Mismatch l =>
      constructor
      · show tExtent (coalesce (CigarOp.Mismatch l :: rest.filter posLen)) + 0 = tExtent c
        rw [show tExtent (coalesce (CigarOp.Mismatch l :: rest.filter posLen)) =
            wsum tContrib (coalesce (CigarOp.Mismatch l :: rest.filter posLen)) from rfl,
          coalesce_wsum tContrib tContrib_merge, wsum_cons,
          filter_posLen_wsum tContrib tContrib_of_zero]
        rw [wsum_cons] at htd
        have : tExtent c = wsum tContrib c := rfl
        omega
      · show qExtent (coalesce (CigarOp.Mismatch l :: rest.filter posLen)) + 0 = qExtent c
        rw [show qExtent (coalesce (CigarOp.Mismatch l :: rest.filter posLen)) =
            wsum qContrib (coalesce (CigarOp.Mismatch l :: rest.filter posLen)) from rfl,
          coalesce_wsum qContrib qContrib_merge, wsum_cons,
          filter_posLen_wsum qContrib qContrib_of_zero]
        rw [wsum_cons] at hqd
        have : qExtent c = wsum qContrib c := rfl
        omega
    | Insertion l =>
      constructor
      · show tExtent (coalesce (rest.filter posLen)) + 0 = tExtent c
        rw [show tExtent (coalesce (rest.filter posLen)) =
            wsum tContrib (coalesce (rest.filter posLen)) from rfl,
          coalesce_wsum tContrib tContrib_merge,
          filter_posLen_wsum tContrib tContrib_of_zero]
        rw [wsum_cons] at htd
        have : tExtent c = wsum tContrib c := rfl
        simp [tContrib] at htd
        omega
      · show qExtent (coalesce (rest.filter posLen)) + l = qExtent c
        rw [show qExtent (coalesce (rest.filter posLen)) =
            wsum qContrib (coalesce (rest.filter posLen)) from rfl,
          coalesce_wsum qContrib qContrib_merge,
          filter_posLen_wsum qContrib qContrib_of_zero]
        rw [wsum_cons] at hqd
        have : qExtent c = wsum qContrib c := rfl
        simp [qContrib] at hqd
        omega
    | Deletion l =>
      constructor
      · show tExtent (coalesce (rest.filter posLen)) + l = tExtent c
        rw [show tExtent (coalesce (rest.filter posLen)) =
            wsum tContrib (coalesce (rest.filter posLen)) from rfl,
          coalesce_wsum tContrib tContrib_merge,
          filter_posLen_wsum tContrib tContrib_of_zero]
        rw [wsum_cons] at htd
        have : tExtent c = wsum tContrib c := rfl
        simp [tContrib] at htd
        omega
      · show qExtent (coalesce (rest.filter posLen)) + 0 = qExtent c
        rw [show qExtent (coalesce (rest.filter posLen)) =
            wsum qContrib (coalesce (rest.filter posLen)) from rfl,
          coalesce_wsum qContrib qContrib_merge,
          filter_posLen_wsum qContrib qContrib_of_zero]
        rw [wsum_cons] at hqd
        have : qExtent c = wsum qContrib c := rfl
        simp [qContrib] at hqd
        omega

/-- The head surviving a dropWhile falsifies the predicate. -/
theorem dropWhile_head_not (p : CigarOp → Bool) :
    ∀ (l : List CigarOp) (a : CigarOp) (t : List CigarOp),
      l.dropWhile p = a :: t → p a = false := by
  intro l
  induction l with
  | nil => intro a t h; simp [List.dropWhile] at h
  | cons b r ih =>
    intro a t h
    by_cases hb : p b = true
    · rw [List.dropWhile_cons_of_pos hb] at h
      exact ih a t h
    · rw [List.dropWhile_cons_of_neg hb] at h
      simp only [List.cons.injEq] at h
      rcases h with ⟨rfl, rfl⟩
      exact Bool.eq_false_iff.mpr hb

/-- Every op kept by the retain pass has positive run length. -/
theorem retain_pos (x : List CigarOp) :
    ∀ op ∈ (retainGo true 0 0 x).1, 0 < op.get_length := by
  rw [retain_char]
  cases hdrop : x.dropWhile zeroMX with
  | nil => simp
  | cons hd rest =>
    have hhd : zeroMX hd = false := dropWhile_head_not zeroMX x hd rest hdrop
    have hfilter : ∀ op ∈ rest.filter posLen, 0 < op.get_length := by
      intro op hop
      have := (List.mem_filter.1 hop).2
      simpa [posLen] using this
    cases hd with
    | Match l =>
      intro op hop
      simp only [List.mem_cons] at hop
      rcases hop with rfl | hop
      · simp [zeroMX, CigarOp.isMX, CigarOp.get_length] at hhd
        simp only [CigarOp.get_length]
        omega
      · exact hfilter op hop
    | Mismatch l =>
      intro op hop
      simp only [List.mem_cons] at hop
      rcases hop with rfl | hop
      · simp [zeroMX, CigarOp.isMX, CigarOp.get_length] at hhd
        simp only [CigarOp.get_length]
        omega
      · exact hfilter op hop
    | Insertion l => exact hfilter
    | Deletion l => exact hfilter

/-- C3: after fix_cigar, no two adjacent ops share a kind and every op has
positive run length (proved for every input CIGAR, in particular the
well-formed ones). -/
theorem fix_cigar_coalesced_positive :
    ∀ (cigar : List CigarOp) (target query : List Nat),
      (fix_cigar cigar target query).1.Chain' (fun a b => a.tag ≠ b.tag) ∧
      ∀ op ∈ (fix_cigar cigar target query).1, 0 < op.get_length := by
  intro c t q
  have hfc : (fix_cigar c t q).1 = coalesce (retainGo true 0 0 (pass1 c t q)).1 := rfl
  rw [hfc]
  have hpos := retain_pos (pass1 c t q)
  cases hr : (retainGo true 0 0 (pass1 c t q)).1 with
  | nil => exact ⟨by simp [coalesce], by simp [coalesce]⟩
  | cons op rest =>
    rw [hr] at hpos
    exact ⟨coalesceGo_chain rest op,
      coalesceGo_pos rest op (hpos op (by simp)) (fun x hx => hpos x (by simp [hx]))⟩

/-- Witness for C3 at a concrete input whose normalization merges two
Match runs: the output is [Match 3, Insertion 3]. -/
theorem fix_cigar_coalesced_positive_witness :
    (fix_cigar [CigarOp.Match 1, CigarOp.Match 2, CigarOp.Insertion 3]
      [65, 66, 67] [65, 66, 67, 68, 69, 70]).1.Chain'
        (fun a b => a.tag ≠ b.tag) ∧
    0 < (CigarOp.Match 3).get_length :=
  ⟨(fix_cigar_coalesced_positive [CigarOp.Match 1, CigarOp.Match 2, CigarOp.Insertion 3]
      [65, 66, 67] [65, 66, 67, 68, 69, 70]).1,
   (fix_cigar_coalesced_positive [CigarOp.Match 1, CigarOp.Match 2, CigarOp.Insertion 3]
      [65, 66, 67] [65, 66, 67, 68, 69, 70]).2 (CigarOp.Match 3) (by decide)⟩

/-- C4: the retain phase of fix_cigar, characterized on the output of the
shifting pass: after dropping the leading zero-length Match/Mismatch ops,
a leading Insertion is removed with its length returned as queryShift, a
leading Deletion is removed with its length returned as targetShift, and in
every other case the returned pair is (0, 0); the remainder is filtered to
positive lengths and coalesced. -/
theorem fix_cigar_leading_indel_shift :
    ∀ (cigar : List CigarOp) (target query : List Nat),
      fix_cigar cigar target query =
        match (pass1 cigar target query).dropWhile zeroMX with
        | [] => ([], 0, 0)
        | .Insertion l :: rest => (coalesce (rest.filter posLen), 0, l)
        | .Deletion l :: rest => (coalesce (rest.filter posLen), l, 0)
        | op :: rest => (coalesce (op :: rest.filter posLen), 0, 0) := by
  intro c t q
  have hfc : fix_cigar c t q =
      (coalesce (retainGo true 0 0 (pass1 c t q)).1,
        (retainGo true 0 0 (pass1 c t q)).2) := rfl
  rw [hfc, retain_char]
  cases hdrop : (pass1 c t q).dropWhile zeroMX with
  | nil => rfl
  | cons op rest => cases op <;> rfl

/-! Machinery for the idempotence analysis of fix_cigar.  The left-to-right
pass reads and rewrites its accumulator only through the head, so a run
from a deep accumulator peels into the inert part and a run from the head
alone; a walk predicate then expresses that a CIGAR admits no further
shifting, and the pass is shown to produce walk-stable output whenever it
removes nothing. -/

/-- The pass only inspects and rewrites the head of its accumulator: the
deeper part is inert and can be peeled off. -/
theorem pass1Go_peel (t q : List Nat) :
    ∀ (rest : List CigarOp) (h : CigarOp) (dtl : List CigarOp) (tp qp : Nat)
      (cur : CigarOp),
      pass1Go t q (h :: dtl) tp qp cur rest =
        dtl.reverse ++ pass1Go t q [h] tp qp cur rest := by
  intro rest
  induction rest with
  | nil =>
    intro h dtl tp qp cur
    rw [pass1Go, pass1Go]
    simp
  | cons next r ih =>
    intro h dtl tp qp cur
    cases cur with
    | Match l => rw [pass1Go, pass1Go, ih, ih (.Match l) [h]]; simp
    | Mismatch l => rw [pass1Go, pass1Go, ih, ih (.Mismatch l) [h]]; simp
    | Insertion len =>
      rw [pass1Go, pass1Go]
      by_cases hf : h.isMX && next.isMX
      · rw [if_pos hf, if_pos hf]
        by_cases hl : 0 < indelShift q qp len 0 h.get_length
        · simp only [if_pos hl]
          rw [ih, ih (.Insertion len) [h.with_length (h.get_length - indelShift q qp len 0 h.get_length)]]
          simp
        · simp only [if_neg hl]
          rw [ih, ih (.Insertion len) [h]]
          simp
      · rw [if_neg hf, if_neg hf, ih, ih (.Insertion len) [h]]
        simp
    | Deletion len =>
      rw [pass1Go, pass1Go]
      by_cases hf : h.isMX && next.isMX
      · rw [if_pos hf, if_pos hf]
        by_cases hl : 0 < indelShift t tp len 0 h.get_length
        · simp only [if_pos hl]
          rw [ih, ih (.Deletion len) [h.with_length (h.get_length - indelShift t tp len 0 h.get_length)]]
          simp
        · simp only [if_neg hl]
          rw [ih, ih (.Deletion len) [h]]
          simp
      · rw [if_neg hf, if_neg hf, ih, ih (.Deletion len) [h]]
        simp

/-- A walk over a CIGAR with the traversal rule of the shifting pass (same
position bookkeeping, including the missing advance past unflanked indels)
that checks that every flanked indel admits shift 0. -/
def noShiftWalk (target query : List Nat) :
    Option CigarOp → Nat → Nat → List CigarOp → Bool
  | _, _, _, [] => true
  | p?, tp, qp, op :: rest =>
    match op with
    | .Match l => noShiftWalk target query (some (.Match l)) (tp + l) (qp + l) rest
    | .Mismatch l => noShiftWalk target query (some (.Mismatch l)) (tp + l) (qp + l) rest
    | .Insertion len =>
      match p?, rest with
      | some prev, next :: _ =>
        if prev.isMX && next.isMX then
          (indelShift query qp len 0 prev.get_length == 0) &&
            noShiftWalk target query (some (.Insertion len)) tp (qp + len) rest
        else noShiftWalk target query (some (.Insertion len)) tp qp rest
      | _, _ => noShiftWalk target query (some (.Insertion len)) tp qp rest
    | .Deletion len =>
      match p?, rest with
      | some prev, next :: _ =>
        if prev.isMX && next.isMX then
          (indelShift target tp len 0 prev.get_length == 0) &&
            noShiftWalk target query (some (.Deletion len)) (tp + len) qp rest
        else noShiftWalk target query (some (.Deletion len)) tp qp rest
      | _, _ => noShiftWalk target query (some (.Deletion len)) tp qp rest

/-- On a walk-stable CIGAR the shifting pass is the identity. -/
theorem pass1Go_of_noShiftWalk (t q : List Nat) :
    ∀ (rest : List CigarOp) (done : List CigarOp) (tp qp : Nat) (cur : CigarOp),
      noShiftWalk t q done.head? tp qp (cur :: rest) = true →
      pass1Go t q done tp qp cur rest = done.reverse ++ cur :: rest := by
  intro rest
  induction rest with
  | nil =>
    intro done tp qp cur _
    rw [pass1Go]
    simp
  | cons next r ih =>
    intro done tp qp cur hw
    cases cur with
    | Match l =>
      rw [pass1Go, ih (.Match l :: done) (tp + l) (qp + l) next (by exact hw)]
      simp
    | Mismatch l =>
      rw [pass1Go, ih (.Mismatch l :: done) (tp + l) (qp + l) next (by exact hw)]
      simp
    | Insertion len =>
      cases done with
      | nil =>
        rw [pass1Go, ih [.Insertion len] tp qp next (by exact hw)]
        simp
      | cons prev donetl =>
        rw [pass1Go]
        by_cases hf : prev.isMX && next.isMX
        · rw [if_pos hf]
          have hw' : indelShift q qp len 0 prev.get_length = 0 ∧
              noShiftWalk t q (some (.Insertion len)) tp (qp + len) (next :: r) = true := by
            simpa [noShiftWalk, hf] using hw
          rw [if_neg (by simp [hw'.1])]
          rw [ih (.Insertion len :: prev :: donetl) tp (qp + len) next hw'.2]
          simp
        · rw [if_neg hf]
          have hw' : noShiftWalk t q (some (.Insertion len)) tp qp (next :: r) = true := by
            simpa [noShiftWalk, hf] using hw
          rw [ih (.Insertion len :: prev :: donetl) tp qp next hw']
          simp
    | Deletion len =>
      cases done with
      | nil =>
        rw [pass1Go, ih [.Deletion len] tp qp next (by exact hw)]
        simp
      | cons prev donetl =>
        rw [pass1Go]
        by_cases hf : prev.isMX && next.isMX
        · rw [if_pos hf]
          have hw' : indelShift t tp len 0 prev.get_length = 0 ∧
              noShiftWalk t q (some (.Deletion len)) (tp + len) qp (next :: r) = true := by
            simpa [noShiftWalk, hf] using hw
          rw [if_neg (by simp [hw'.1])]
          rw [ih (.Deletion len :: prev :: donetl) (tp + len) qp next hw'.2]
          simp
        · rw [if_neg hf]
          have hw' : noShiftWalk t q (some (.Deletion len)) tp qp (next :: r) = true := by
            simpa [noShiftWalk, hf] using hw
          rw [ih (.Deletion len :: prev :: donetl) tp qp next hw']
          simp

/-- If the shift scan stops strictly below its budget, the comparison at
the stopping index failed. -/
theorem indelShift_stop (s : List Nat) (pos len : Nat) :
    ∀ (fuel l r : Nat), indelShift s pos len l fuel = r → r < l + fuel →
      s.getD (pos - 1 - r) 0 ≠ s.getD (pos + len - 1 - r) 0 := by
  intro fuel
  induction fuel with
  | zero =>
    intro l r h hlt
    rw [indelShift] at h
    omega
  | succ n ih =>
    intro l r h hlt
    rw [indelShift] at h
    by_cases hc : s.getD (pos - 1 - l) 0 = s.getD (pos + len - 1 - l) 0
    · rw [if_pos hc] at h
      exact ih (l + 1) r h (by omega)
    · rw [if_neg hc] at h
      exact h ▸ hc

/-- A failing comparison at index 0 forces shift 0. -/
theorem indelShift_zero_of_ne (s : List Nat) (pos len : Nat)
    (h : s.getD (pos - 1) 0 ≠ s.getD (pos + len - 1) 0) :
    ∀ fuel, indelShift s pos len 0 fuel = 0 := by
  intro fuel
  cases fuel with
  | zero => rfl
  | succ n =>
    rw [indelShift, if_neg (by simpa using h)]

/-- Tags determine the Match/Mismatch test. -/
theorem isMX_of_tag_eq (a b : CigarOp) (h : a.tag = b.tag) : a.isMX = b.isMX := by
  cases a <;> cases b <;> simp_all [CigarOp.tag, CigarOp.isMX]

/-- The output of the pass, run from a single-op accumulator, keeps the
sequence of tags of its input state. -/
theorem pass1Go_single_tags (t q : List Nat) (p : CigarOp) (tp qp : Nat)
    (cur : CigarOp) (rest : List CigarOp) :
    (pass1Go t q [p] tp qp cur rest).map CigarOp.tag =
      p.tag :: cur.tag :: rest.map CigarOp.tag := by
  rw [pass1Go_tags]
  simp

/-- A Match/Mismatch op makes the pass push it and advance both
counters. -/
theorem pass1Go_MX_step (t q : List Nat) (done : List CigarOp) (tp qp : Nat)
    (cur next : CigarOp) (rest : List CigarOp) (hcur : cur.isMX = true) :
    pass1Go t q done tp qp cur (next :: rest) =
      pass1Go t q (cur :: done) (tp + cur.get_length) (qp + cur.get_length)
        next rest := by
  cases cur <;> simp [CigarOp.isMX] at hcur <;> rw [pass1Go] <;> rfl

/-- A Match/Mismatch op makes the walk record it and advance both
counters. -/
theorem noShiftWalk_MX_step (t q : List Nat) (p? : Option CigarOp) (tp qp : Nat)
    (cur : CigarOp) (rest : List CigarOp) (hcur : cur.isMX = true) :
    noShiftWalk t q p? tp qp (cur :: rest) =
      noShiftWalk t q (some cur) (tp + cur.get_length) (qp + cur.get_length) rest := by
  cases cur <;> simp [CigarOp.isMX] at hcur <;> rw [noShiftWalk] <;> rfl

/-- The step a state is about to take performs no indel shift: either the
current op is not an interior-flanked indel, or its computed shift is 0.
For any other configuration the condition is vacuous. -/
def stepNoShift (t q : List Nat) (p? : Option CigarOp) (tp qp : Nat)
    (cur : CigarOp) (rest : List CigarOp) : Prop :=
  match cur, p?, rest with
  | .Insertion len, some p, next :: _ =>
      (p.isMX && next.isMX) = true → indelShift q qp len 0 p.get_length = 0
  | .Deletion len, some p, next :: _ =>
      (p.isMX && next.isMX) = true → indelShift t tp len 0 p.get_length = 0
  | _, _, _ => True

theorem stepNoShift_of_MX (t q : List Nat) (p? : Option CigarOp) (tp qp : Nat)
    (cur : CigarOp) (rest : List CigarOp) (hcur : cur.isMX = true) :
    stepNoShift t q p? tp qp cur rest := by
  cases cur <;> cases p? <;> cases rest <;> trivial

theorem stepNoShift_none (t q : List Nat) (tp qp : Nat) (cur : CigarOp)
    (rest : List CigarOp) : stepNoShift t q none tp qp cur rest := by
  cases cur <;> cases rest <;> trivial

theorem stepNoShift_nil (t q : List Nat) (p? : Option CigarOp) (tp qp : Nat)
    (cur : CigarOp) : stepNoShift t q p? tp qp cur [] := by
  cases cur <;> cases p? <;> trivial

theorem stepNoShift_of_prev_not_MX (t q : List Nat) (p : CigarOp)
    (hp : p.isMX = false) (tp qp : Nat) (cur : CigarOp) (rest : List CigarOp) :
    stepNoShift t q (some p) tp qp cur rest := by
  cases cur <;> cases rest <;> try trivial
  all_goals
    intro hh
    rw [hp] at hh
    simp at hh

/-- When the step about to be taken performs no shift, the accumulator head
survives as the head of the output. -/
theorem pass1Go_head_eq (t q : List Nat) :
    ∀ (rest : List CigarOp) (p : CigarOp) (tp qp : Nat) (cur : CigarOp),
      stepNoShift t q (some p) tp qp cur rest →
      ∃ T, pass1Go t q [p] tp qp cur rest = p :: T := by
  intro rest p tp qp cur hNS
  cases rest with
  | nil => exact ⟨[cur], by rw [pass1Go]; rfl⟩
  | cons next r =>
    cases cur with
    | Match cl =>
      refine ⟨pass1Go t q [.Match cl] (tp + cl) (qp + cl) next r, ?_⟩
      rw [pass1Go, pass1Go_peel]
      rfl
    | Mismatch cl =>
      refine ⟨pass1Go t q [.Mismatch cl] (tp + cl) (qp + cl) next r, ?_⟩
      rw [pass1Go, pass1Go_peel]
      rfl
    | Insertion len =>
      by_cases hf : (p.isMX && next.isMX) = true
      · have h0 : indelShift q qp len 0 p.get_length = 0 := hNS hf
        refine ⟨pass1Go t q [.Insertion len] tp (qp + len) next r, ?_⟩
        rw [pass1Go, if_pos hf, if_neg (by simp [h0]), pass1Go_peel]
        rfl
      · refine ⟨pass1Go t q [.Insertion len] tp qp next r, ?_⟩
        rw [pass1Go, if_neg hf, pass1Go_peel]
        rfl
    | Deletion len =>
      by_cases hf : (p.isMX && next.isMX) = true
      · have h0 : indelShift t tp len 0 p.get_length = 0 := hNS hf
        refine ⟨pass1Go t q [.Deletion len] (tp + len) qp next r, ?_⟩
        rw [pass1Go, if_pos hf, if_neg (by simp [h0]), pass1Go_peel]
        rfl
      · refine ⟨pass1Go t q [.Deletion len] tp qp next r, ?_⟩
        rw [pass1Go, if_neg hf, pass1Go_peel]
        rfl

theorem optToList_none : (none : Option CigarOp).toList = [] := rfl

theorem optToList_some (p : CigarOp) : (some p).toList = [p] := rfl

theorem optToList_reverse (p? : Option CigarOp) : p?.toList.reverse = p?.toList := by
  cases p? <;> rfl

theorem tags_cons_extract :
    ∀ (L : List CigarOp) (a : Nat) (r : List Nat),
      L.map CigarOp.tag = a :: r →
      ∃ y T, L = y :: T ∧ y.tag = a ∧ T.map CigarOp.tag = r := by
  intro L a r h
  cases L with
  | nil => simp at h
  | cons y T =>
    simp only [List.map_cons, List.cons.injEq] at h
    exact ⟨y, T, rfl, h.1, h.2⟩

theorem noShiftWalk_I_none (t q : List Nat) (tp qp len : Nat) (T : List CigarOp) :
    noShiftWalk t q none tp qp (.Insertion len :: T) =
      noShiftWalk t q (some (.Insertion len)) tp qp T := by
  rw [noShiftWalk]
  intro prev next tail h1 h2
  exact Option.noConfusion h1

theorem noShiftWalk_D_none (t q : List Nat) (tp qp len : Nat) (T : List CigarOp) :
    noShiftWalk t q none tp qp (.Deletion len :: T) =
      noShiftWalk t q (some (.Deletion len)) tp qp T := by
  rw [noShiftWalk]
  intro prev next tail h1 h2
  exact Option.noConfusion h1

theorem noShiftWalk_I_flanked (t q : List Nat) (prev : CigarOp) (tp qp len : Nat)
    (y : CigarOp) (T : List CigarOp) (hf : (prev.isMX && y.isMX) = true) :
    noShiftWalk t q (some prev) tp qp (.Insertion len :: y :: T) =
      ((indelShift q qp len 0 prev.get_length == 0) &&
        noShiftWalk t q (some (.Insertion len)) tp (qp + len) (y :: T)) := by
  rw [noShiftWalk, if_pos hf]

theorem noShiftWalk_D_flanked (t q : List Nat) (prev : CigarOp) (tp qp len : Nat)
    (y : CigarOp) (T : List CigarOp) (hf : (prev.isMX && y.isMX) = true) :
    noShiftWalk t q (some prev) tp qp (.Deletion len :: y :: T) =
      ((indelShift t tp len 0 prev.get_length == 0) &&
        noShiftWalk t q (some (.Deletion len)) (tp + len) qp (y :: T)) := by
  rw [noShiftWalk, if_pos hf]

theorem noShiftWalk_I_unflanked (t q : List Nat) (prev : CigarOp) (tp qp len : Nat)
    (y : CigarOp) (T : List CigarOp) (hf : (prev.isMX && y.isMX) = false) :
    noShiftWalk t q (some prev) tp qp (.Insertion len :: y :: T) =
      noShiftWalk t q (some (.Insertion len)) tp qp (y :: T) := by
  rw [noShiftWalk, if_neg (by simp [hf])]

theorem noShiftWalk_D_unflanked (t q : List Nat) (prev : CigarOp) (tp qp len : Nat)
    (y : CigarOp) (T : List CigarOp) (hf : (prev.isMX && y.isMX) = false) :
    noShiftWalk t q (some prev) tp qp (.Deletion len :: y :: T) =
      noShiftWalk t q (some (.Deletion len)) tp qp (y :: T) := by
  rw [noShiftWalk, if_neg (by simp [hf])]

theorem noShiftWalk_I_last (t q : List Nat) (p? : Option CigarOp) (tp qp len : Nat) :
    noShiftWalk t q p? tp qp [.Insertion len] = true := by
  cases p? <;> rw [noShiftWalk] <;>
    first
    | rfl
    | (intro prev next tail h1 h2; exact List.noConfusion h2)

theorem noShiftWalk_D_last (t q : List Nat) (p? : Option CigarOp) (tp qp len : Nat) :
    noShiftWalk t q p? tp qp [.Deletion len] = true := by
  cases p? <;> rw [noShiftWalk] <;>
    first
    | rfl
    | (intro prev next tail h1 h2; exact List.noConfusion h2)

/-- Base case of the walk-stability argument: with nothing after the
current op, the pass emits it unchanged and the walk accepts. -/
theorem noShiftWalk_of_pass1_nil (t q : List Nat) (p? : Option CigarOp)
    (tp qp : Nat) (cur : CigarOp) :
    ∀ T, pass1Go t q p?.toList tp qp cur [] = p?.toList ++ T →
      noShiftWalk t q p? tp qp T = true := by
  intro T hT
  rw [pass1Go] at hT
  cases p? with
  | none =>
    have hTeq : T = [cur] := by simpa using hT.symm
    subst hTeq
    cases cur <;> simp [noShiftWalk]
  | some p =>
    have hTeq : T = [cur] := by simpa using hT.symm
    subst hTeq
    cases cur <;> simp [noShiftWalk]

/-- Output stability of the shifting pass: started from a state whose own
step does not shift, and producing only positive run lengths, the pass
yields a tail on which the walk finds no further shift.  The key cases: a
shift of l at a flanked indel stopped either at a base mismatch — which is
exactly the walk's first comparison at the rewound position — or by
exhausting the preceding run, which the positivity hypothesis rules out. -/
theorem pass1Go_shiftFree (t q : List Nat) :
    ∀ (n : Nat) (rest : List CigarOp) (p? : Option CigarOp) (tp qp : Nat)
      (cur : CigarOp),
      rest.length ≤ n →
      stepNoShift t q p? tp qp cur rest →
      (∀ op ∈ pass1Go t q p?.toList tp qp cur rest, 0 < op.get_length) →
      ∀ T, pass1Go t q p?.toList tp qp cur rest = p?.toList ++ T →
        noShiftWalk t q p? tp qp T = true := by
  intro n
  induction n with
  | zero =>
    intro rest p? tp qp cur hlen _ _ T hT
    have hnil : rest = [] := List.length_eq_zero.1 (by omega)
    subst hnil
    exact noShiftWalk_of_pass1_nil t q p? tp qp cur T hT
  | succ n ih =>
    intro rest p? tp qp cur hlen hNS hpos T hT
    cases rest with
    | nil => exact noShiftWalk_of_pass1_nil t q p? tp qp cur T hT
    | cons next r =>
      simp only [List.length_cons] at hlen
      by_cases hcm : cur.isMX = true
      · rw [pass1Go_MX_step t q p?.toList tp qp cur next r hcm] at hT
        have hrun : pass1Go t q (cur :: p?.toList) (tp + cur.get_length)
            (qp + cur.get_length) next r =
            p?.toList ++
              pass1Go t q [cur] (tp + cur.get_length) (qp + cur.get_length) next r := by
          cases p? with
          | none => rw [optToList_none]; simp
          | some p => rw [optToList_some, pass1Go_peel]; rfl
        rw [hrun] at hT
        have hTeq : pass1Go t q [cur] (tp + cur.get_length) (qp + cur.get_length) next r
            = T := List.append_cancel_left hT
        have hposIn : ∀ op ∈ pass1Go t q [cur] (tp + cur.get_length)
            (qp + cur.get_length) next r, 0 < op.get_length := by
          intro op hop
          apply hpos
          rw [pass1Go_MX_step t q p?.toList tp qp cur next r hcm, hrun]
          exact List.mem_append_right _ hop
        have onestep : stepNoShift t q (some cur) (tp + cur.get_length)
            (qp + cur.get_length) next r → noShiftWalk t q p? tp qp T = true := by
          intro hNS2
          obtain ⟨T', hT'⟩ := pass1Go_head_eq t q r cur (tp + cur.get_length)
            (qp + cur.get_length) next hNS2
          rw [← hTeq, hT']
          rw [noShiftWalk_MX_step t q p? tp qp cur T' hcm]
          refine ih r (some cur) _ _ next (by omega) hNS2 ?_ T' (by rw [optToList_some, hT']; rfl)
          intro op hop
          exact hposIn op hop
        cases next with
        | Match nl => exact onestep (stepNoShift_of_MX t q (some cur) _ _ _ r rfl)
        | Mismatch nl => exact onestep (stepNoShift_of_MX t q (some cur) _ _ _ r rfl)
        | Insertion ilen =>
          cases r with
          | nil => exact onestep (stepNoShift_nil t q (some cur) _ _ _)
          | cons next2 r2 =>
            simp only [List.length_cons] at hlen
            by_cases hmx2 : next2.isMX = true
            · by_cases hsh : 0 < indelShift q (qp + cur.get_length) ilen 0 cur.get_length
              · set l := indelShift q (qp + cur.get_length) ilen 0 cur.get_length with hldef
                have hcmx2 : (cur.isMX && next2.isMX) = true := by rw [hcm, hmx2]; rfl
                have hrun2 : pass1Go t q [cur] (tp + cur.get_length) (qp + cur.get_length)
                    (.Insertion ilen) (next2 :: r2) =
                    cur.with_length (cur.get_length - l) ::
                      pass1Go t q [.Insertion ilen]
                        (tp + cur.get_length - l) (qp + cur.get_length - l + ilen)
                        (next2.with_length (next2.get_length + l)) r2 := by
                  rw [pass1Go, if_pos hcmx2, if_pos hsh, pass1Go_peel]
                  rfl
                have hTfull : T = cur.with_length (cur.get_length - l) ::
                    pass1Go t q [.Insertion ilen]
                      (tp + cur.get_length - l) (qp + cur.get_length - l + ilen)
                      (next2.with_length (next2.get_length + l)) r2 := by
                  rw [← hTeq, hrun2]
                have hposcwl : 0 < cur.get_length - l := by
                  have hm : cur.with_length (cur.get_length - l) ∈
                      pass1Go t q [cur] (tp + cur.get_length) (qp + cur.get_length)
                        (.Insertion ilen) (next2 :: r2) := by
                    rw [hrun2]
                    exact List.mem_cons_self _ _
                  have hp := hposIn _ hm
                  rwa [CigarOp.get_length_with_length] at hp
                have hstop : q.getD (qp + cur.get_length - 1 - l) 0 ≠
                    q.getD (qp + cur.get_length + ilen - 1 - l) 0 := by
                  apply indelShift_stop q (qp + cur.get_length) ilen cur.get_length 0 l
                    hldef.symm
                  omega
                have hzero : indelShift q (qp + (cur.get_length - l)) ilen 0
                    (cur.get_length - l) = 0 := by
                  apply indelShift_zero_of_ne
                  have e1 : qp + (cur.get_length - l) - 1 =
                      qp + cur.get_length - 1 - l := by omega
                  have e2 : qp + (cur.get_length - l) + ilen - 1 =
                      qp + cur.get_length + ilen - 1 - l := by omega
                  rw [e1, e2]
                  exact hstop
                have hmx2' : (next2.with_length (next2.get_length + l)).isMX = true := by
                  rw [CigarOp.isMX_with_length]
                  exact hmx2
                obtain ⟨T', hT'⟩ := pass1Go_head_eq t q r2 (.Insertion ilen)
                  (tp + cur.get_length - l) (qp + cur.get_length - l + ilen)
                  (next2.with_length (next2.get_length + l))
                  (stepNoShift_of_MX t q (some (.Insertion ilen)) _ _ _ r2 hmx2')
                have htags := pass1Go_single_tags t q (.Insertion ilen)
                  (tp + cur.get_length - l) (qp + cur.get_length - l + ilen)
                  (next2.with_length (next2.get_length + l)) r2
                rw [hT'] at htags
                simp only [List.map_cons, List.cons.injEq] at htags
                obtain ⟨y, T'', hT'eq, hytag, _⟩ := tags_cons_extract T' _ _ htags.2
                have hyMX : y.isMX = true := by
                  have h1 := isMX_of_tag_eq y
                    (next2.with_length (next2.get_length + l)) hytag
                  rw [CigarOp.isMX_with_length] at h1
                  rw [h1]
                  exact hmx2
                have hcwlMX : (cur.with_length (cur.get_length - l)).isMX = true := by
                  rw [CigarOp.isMX_with_length]
                  exact hcm
                rw [hTfull, hT', hT'eq]
                rw [noShiftWalk_MX_step t q p? tp qp _ _ hcwlMX,
                  CigarOp.get_length_with_length]
                rw [noShiftWalk_I_flanked t q _ _ _ ilen y T''
                  (by rw [hcwlMX, hyMX]; rfl)]
                rw [CigarOp.get_length_with_length, hzero]
                simp only [show ((0 : Nat) == 0) = true from rfl, Bool.true_and]
                have e3 : tp + (cur.get_length - l) = tp + cur.get_length - l := by omega
                have e4 : qp + (cur.get_length - l) + ilen =
                    qp + cur.get_length - l + ilen := by omega
                rw [e3, e4, ← hT'eq]
                refine ih r2 (some (.Insertion ilen)) _ _
                  (next2.with_length (next2.get_length + l)) (by omega)
                  (stepNoShift_of_MX t q _ _ _ _ r2 hmx2') ?_ T' (by rw [optToList_some, hT']; rfl)
                intro op hop
                apply hposIn
                rw [hrun2]
                exact List.mem_cons_of_mem _ hop
              · exact onestep (by intro _; omega)
            · exact onestep (by
                intro hh
                rw [Bool.and_eq_true] at hh
                exact absurd hh.2 hmx2)
        | Deletion dlen =>
          cases r with
          | nil => exact onestep (stepNoShift_nil t q (some cur) _ _ _)
          | cons next2 r2 =>
            simp only [List.length_cons] at hlen
            by_cases hmx2 : next2.isMX = true
            · by_cases hsh : 0 < indelShift t (tp + cur.get_length) dlen 0 cur.get_length
              · set l := indelShift t (tp + cur.get_length) dlen 0 cur.get_length with hldef
                have hcmx2 : (cur.isMX && next2.isMX) = true := by rw [hcm, hmx2]; rfl
                have hrun2 : pass1Go t q [cur] (tp + cur.get_length) (qp + cur.get_length)
                    (.Deletion dlen) (next2 :: r2) =
                    cur.with_length (cur.get_length - l) ::
                      pass1Go t q [.Deletion dlen]
                        (tp + cur.get_length - l + dlen) (qp + cur.get_length - l)
                        (next2.with_length (next2.get_length + l)) r2 := by
                  rw [pass1Go, if_pos hcmx2, if_pos hsh, pass1Go_peel]
                  rfl
                have hTfull : T = cur.with_length (cur.get_length - l) ::
                    pass1Go t q [.Deletion dlen]
                      (tp + cur.get_length - l + dlen) (qp + cur.get_length - l)
                      (next2.with_length (next2.get_length + l)) r2 := by
                  rw [← hTeq, hrun2]
                have hposcwl : 0 < cur.get_length - l := by
                  have hm : cur.with_length (cur.get_length - l) ∈
                      pass1Go t q [cur] (tp + cur.get_length) (qp + cur.get_length)
                        (.Deletion dlen) (next2 :: r2) := by
                    rw [hrun2]
                    exact List.mem_cons_self _ _
                  have hp := hposIn _ hm
                  rwa [CigarOp.get_length_with_length] at hp
                have hstop : t.getD (tp + cur.get_length - 1 - l) 0 ≠
                    t.getD (tp + cur.get_length + dlen - 1 - l) 0 := by
                  apply indelShift_stop t (tp + cur.get_length) dlen cur.get_length 0 l
                    hldef.symm
                  omega
                have hzero : indelShift t (tp + (cur.get_length - l)) dlen 0
                    (cur.get_length - l) = 0 := by
                  apply indelShift_zero_of_ne
                  have e1 : tp + (cur.get_length - l) - 1 =
                      tp + cur.get_length - 1 - l := by omega
                  have e2 : tp + (cur.get_length - l) + dlen - 1 =
                      tp + cur.get_length + dlen - 1 - l := by omega
                  rw [e1, e2]
                  exact hstop
                have hmx2' : (next2.with_length (next2.get_length + l)).isMX = true := by
                  rw [CigarOp.isMX_with_length]
                  exact hmx2
                obtain ⟨T', hT'⟩ := pass1Go_head_eq t q r2 (.Deletion dlen)
                  (tp + cur.get_length - l + dlen) (qp + cur.get_length - l)
                  (next2.with_length (next2.get_length + l))
                  (stepNoShift_of_MX t q (some (.Deletion dlen)) _ _ _ r2 hmx2')
                have htags := pass1Go_single_tags t q (.Deletion dlen)
                  (tp + cur.get_length - l + dlen) (qp + cur.get_length - l)
                  (next2.with_length (next2.get_length + l)) r2
                rw [hT'] at htags
                simp only [List.map_cons, List.cons.injEq] at htags
                obtain ⟨y, T'', hT'eq, hytag, _⟩ := tags_cons_extract T' _ _ htags.2
                have hyMX : y.isMX = true := by
                  have h1 := isMX_of_tag_eq y
                    (next2.with_length (next2.get_length + l)) hytag
                  rw [CigarOp.isMX_with_length] at h1
                  rw [h1]
                  exact hmx2
                have hcwlMX : (cur.with_length (cur.get_length - l)).isMX = true := by
                  rw [CigarOp.isMX_with_length]
                  exact hcm
                rw [hTfull, hT', hT'eq]
                rw [noShiftWalk_MX_step t q p? tp qp _ _ hcwlMX,
                  CigarOp.get_length_with_length]
                rw [noShiftWalk_D_flanked t q _ _ _ dlen y T''
                  (by rw [hcwlMX, hyMX]; rfl)]
                rw [CigarOp.get_length_with_length, hzero]
                simp only [show ((0 : Nat) == 0) = true from rfl, Bool.true_and]
                have e3 : tp + (cur.get_length - l) + dlen =
                    tp + cur.get_length - l + dlen := by omega
                have e4 : qp + (cur.get_length - l) = qp + cur.get_length - l := by omega
                rw [e3, e4, ← hT'eq]
                refine ih r2 (some (.Deletion dlen)) _ _
                  (next2.with_length (next2.get_length + l)) (by omega)
                  (stepNoShift_of_MX t q _ _ _ _ r2 hmx2') ?_ T' (by rw [optToList_some, hT']; rfl)
                intro op hop
                apply hposIn
                rw [hrun2]
                exact List.mem_cons_of_mem _ hop
              · exact onestep (by intro _; omega)
            · exact onestep (by
                intro hh
                rw [Bool.and_eq_true] at hh
                exact absurd hh.2 hmx2)
      · cases cur with
        | Match cl => simp [CigarOp.isMX] at hcm
        | Mismatch cl => simp [CigarOp.isMX] at hcm
        | Insertion len =>
          cases p? with
          | none =>
            rw [optToList_none] at hT
            have hEQ : pass1Go t q [] tp qp (.Insertion len) (next :: r) =
                pass1Go t q [.Insertion len] tp qp next r := by
              rw [pass1Go]
            rw [hEQ, List.nil_append] at hT
            obtain ⟨T', hT'⟩ := pass1Go_head_eq t q r (.Insertion len) tp qp next
              (stepNoShift_of_prev_not_MX t q (.Insertion len) rfl tp qp next r)
            rw [← hT, hT']
            rw [noShiftWalk_I_none]
            refine ih r (some (.Insertion len)) tp qp next (by omega)
              (stepNoShift_of_prev_not_MX t q (.Insertion len) rfl tp qp next r) ?_ T'
              (by rw [optToList_some, hT']; rfl)
            intro op hop
            apply hpos
            rw [optToList_none, hEQ]
            exact hop
          | some p =>
            rw [optToList_some] at hT
            by_cases hf : (p.isMX && next.isMX) = true
            · have h0 : indelShift q qp len 0 p.get_length = 0 := hNS hf
              have hEQ : pass1Go t q [p] tp qp (.Insertion len) (next :: r) =
                  [p] ++ pass1Go t q [.Insertion len] tp (qp + len) next r := by
                rw [pass1Go, if_pos hf, if_neg (by simp [h0]), pass1Go_peel]
                rfl
              rw [hEQ] at hT
              have hTeq : pass1Go t q [.Insertion len] tp (qp + len) next r = T :=
                List.append_cancel_left hT
              obtain ⟨T', hT'⟩ := pass1Go_head_eq t q r (.Insertion len) tp (qp + len)
                next (stepNoShift_of_prev_not_MX t q (.Insertion len) rfl tp (qp + len)
                  next r)
              have htags := pass1Go_single_tags t q (.Insertion len) tp (qp + len) next r
              rw [hT'] at htags
              simp only [List.map_cons, List.cons.injEq] at htags
              obtain ⟨y, T'', hT'eq, hytag, _⟩ := tags_cons_extract T' _ _ htags.2
              have hyn : y.isMX = next.isMX := isMX_of_tag_eq y next hytag
              rw [← hTeq, hT', hT'eq]
              rw [noShiftWalk_I_flanked t q p tp qp len y T'' (by rw [hyn]; exact hf)]
              rw [h0]
              simp only [show ((0 : Nat) == 0) = true from rfl, Bool.true_and]
              rw [← hT'eq]
              refine ih r (some (.Insertion len)) tp (qp + len) next (by omega)
                (stepNoShift_of_prev_not_MX t q (.Insertion len) rfl tp (qp + len)
                  next r) ?_ T' (by rw [optToList_some, hT']; rfl)
              intro op hop
              apply hpos
              rw [optToList_some, hEQ]
              exact List.mem_append_right _ hop
            · have hEQ : pass1Go t q [p] tp qp (.Insertion len) (next :: r) =
                  [p] ++ pass1Go t q [.Insertion len] tp qp next r := by
                rw [pass1Go, if_neg hf, pass1Go_peel]
                rfl
              rw [hEQ] at hT
              have hTeq : pass1Go t q [.Insertion len] tp qp next r = T :=
                List.append_cancel_left hT
              obtain ⟨T', hT'⟩ := pass1Go_head_eq t q r (.Insertion len) tp qp next
                (stepNoShift_of_prev_not_MX t q (.Insertion len) rfl tp qp next r)
              have htags := pass1Go_single_tags t q (.Insertion len) tp qp next r
              rw [hT'] at htags
              simp only [List.map_cons, List.cons.injEq] at htags
              obtain ⟨y, T'', hT'eq, hytag, _⟩ := tags_cons_extract T' _ _ htags.2
              have hyn : y.isMX = next.isMX := isMX_of_tag_eq y next hytag
              rw [← hTeq, hT', hT'eq]
              rw [noShiftWalk_I_unflanked t q p tp qp len y T'' (by
                rw [hyn]
                cases hv : (p.isMX && next.isMX) with
                | false => rfl
                | true => exact absurd hv hf)]
              rw [← hT'eq]
              refine ih r (some (.Insertion len)) tp qp next (by omega)
                (stepNoShift_of_prev_not_MX t q (.Insertion len) rfl tp qp next r) ?_ T'
                (by rw [optToList_some, hT']; rfl)
              intro op hop
              apply hpos
              rw [optToList_some, hEQ]
              exact List.mem_append_right _ hop
        | Deletion len =>
          cases p? with
          | none =>
            rw [optToList_none] at hT
            have hEQ : pass1Go t q [] tp qp (.Deletion len) (next :: r) =
                pass1Go t q [.Deletion len] tp qp next r := by
              rw [pass1Go]
            rw [hEQ, List.nil_append] at hT
            obtain ⟨T', hT'⟩ := pass1Go_head_eq t q r (.Deletion len) tp qp next
              (stepNoShift_of_prev_not_MX t q (.Deletion len) rfl tp qp next r)
            rw [← hT, hT']
            rw [noShiftWalk_D_none]
            refine ih r (some (.Deletion len)) tp qp next (by omega)
              (stepNoShift_of_prev_not_MX t q (.Deletion len) rfl tp qp next r) ?_ T'
              (by rw [optToList_some, hT']; rfl)
            intro op hop
            apply hpos
            rw [optToList_none, hEQ]
            exact hop
          | some p =>
            rw [optToList_some] at hT
            by_cases hf : (p.isMX && next.isMX) = true
            · have h0 : indelShift t tp len 0 p.get_length = 0 := hNS hf
              have hEQ : pass1Go t q [p] tp qp (.Deletion len) (next :: r) =
                  [p] ++ pass1Go t q [.Deletion len] (tp + len) qp next r := by
                rw [pass1Go, if_pos hf, if_neg (by simp [h0]), pass1Go_peel]
                rfl
              rw [hEQ] at hT
              have hTeq : pass1Go t q [.Deletion len] (tp + len) qp next r = T :=
                List.append_cancel_left hT
              obtain ⟨T', hT'⟩ := pass1Go_head_eq t q r (.Deletion len) (tp + len) qp
                next (stepNoShift_of_prev_not_MX t q (.Deletion len) rfl (tp + len) qp
                  next r)
              have htags := pass1Go_single_tags t q (.Deletion len) (tp + len) qp next r
              rw [hT'] at htags
              simp only [List.map_cons, List.cons.injEq] at htags
              obtain ⟨y, T'', hT'eq, hytag, _⟩ := tags_cons_extract T' _ _ htags.2
              have hyn : y.isMX = next.isMX := isMX_of_tag_eq y next hytag
              rw [← hTeq, hT', hT'eq]
              rw [noShiftWalk_D_flanked t q p tp qp len y T'' (by rw [hyn]; exact hf)]
              rw [h0]
              simp only [show ((0 : Nat) == 0) = true from rfl, Bool.true_and]
              rw [← hT'eq]
              refine ih r (some (.Deletion len)) (tp + len) qp next (by omega)
                (stepNoShift_of_prev_not_MX t q (.Deletion len) rfl (tp + len) qp
                  next r) ?_ T' (by rw [optToList_some, hT']; rfl)
              intro op hop
              apply hpos
              rw [optToList_some, hEQ]
              exact List.mem_append_right _ hop
            · have hEQ : pass1Go t q [p] tp qp (.Deletion len) (next :: r) =
                  [p] ++ pass1Go t q [.Deletion len] tp qp next r := by
                rw [pass1Go, if_neg hf, pass1Go_peel]
                rfl
              rw [hEQ] at hT
              have hTeq : pass1Go t q [.Deletion len] tp qp next r = T :=
                List.append_cancel_left hT
              obtain ⟨T', hT'⟩ := pass1Go_head_eq t q r (.Deletion len) tp qp next
                (stepNoShift_of_prev_not_MX t q (.Deletion len) rfl tp qp next r)
              have htags := pass1Go_single_tags t q (.Deletion len) tp qp next r
              rw [hT'] at htags
              simp only [List.map_cons, List.cons.injEq] at htags
              obtain ⟨y, T'', hT'eq, hytag, _⟩ := tags_cons_extract T' _ _ htags.2
              have hyn : y.isMX = next.isMX := isMX_of_tag_eq y next hytag
              rw [← hTeq, hT', hT'eq]
              rw [noShiftWalk_D_unflanked t q p tp qp len y T'' (by
                rw [hyn]
                cases hv : (p.isMX && next.isMX) with
                | false => rfl
                | true => exact absurd hv hf)]
              rw [← hT'eq]
              refine ih r (some (.Deletion len)) tp qp next (by omega)
                (stepNoShift_of_prev_not_MX t q (.Deletion len) rfl tp qp next r) ?_ T'
                (by rw [optToList_some, hT']; rfl)
              intro op hop
              apply hpos
              rw [optToList_some, hEQ]
              exact List.mem_append_right _ hop

theorem coalesce_length_le (l : List CigarOp) : (coalesce l).length ≤ l.length := by
  cases l with
  | nil => simp [coalesce]
  | cons op rest =>
    rw [coalesce]
    simpa using coalesceGo_length_le rest op

theorem coalesce_of_chain (l : List CigarOp)
    (h : l.Chain' fun a b => a.tag ≠ b.tag) : coalesce l = l := by
  cases l with
  | nil => rfl
  | cons op rest => rw [coalesce]; exact coalesceGo_of_chain rest op h

theorem retain_len_le (x : List CigarOp) :
    (retainGo true 0 0 x).1.length ≤ x.length := by
  rw [retain_char]
  have hd := (List.dropWhile_suffix zeroMX (l := x)).sublist.length_le
  cases hdrop : x.dropWhile zeroMX with
  | nil => simp
  | cons hd0 rest =>
    rw [hdrop] at hd
    simp only [List.length_cons] at hd
    have hf := List.length_filter_le posLen rest
    cases hd0 <;> simp only [List.length_cons] <;> omega

/-- If the retain pass keeps as many ops as it was given, it returns its
input unchanged with shifts (0, 0); moreover every input op is positive and
a nonempty input starts with Match/Mismatch. -/
theorem retain_id_of_len (x : List CigarOp)
    (hlen : (retainGo true 0 0 x).1.length = x.length) :
    retainGo true 0 0 x = (x, 0, 0) ∧
    (∀ op ∈ x, 0 < op.get_length) ∧
    (x = [] ∨ ∃ hd tl, x = hd :: tl ∧ hd.isMX = true) := by
  rw [retain_char] at hlen ⊢
  have hsuffix : (x.dropWhile zeroMX).Sublist x :=
    (List.dropWhile_suffix zeroMX (l := x)).sublist
  cases hdrop : x.dropWhile zeroMX with
  | nil =>
    rw [hdrop] at hlen
    simp only [List.length_nil] at hlen
    have hx : x = [] := List.length_eq_zero.1 hlen.symm
    subst hx
    exact ⟨rfl, by simp, Or.inl rfl⟩
  | cons hd0 rest =>
    rw [hdrop] at hsuffix hlen
    have hdlen : rest.length + 1 ≤ x.length := by
      simpa using hsuffix.length_le
    have hflen := List.length_filter_le posLen rest
    have hhd : zeroMX hd0 = false := dropWhile_head_not zeroMX x hd0 rest hdrop
    cases hd0 with
    | Insertion m => simp only [List.length_cons] at hlen; omega
    | Deletion m => simp only [List.length_cons] at hlen; omega
    | Match m =>
      simp only [List.length_cons] at hlen
      have hfeq : (rest.filter posLen).length = rest.length := by omega
      have hfilter : rest.filter posLen = rest :=
        List.Sublist.eq_of_length (List.filter_sublist rest) hfeq
      have hxeq : CigarOp.Match m :: rest = x :=
        List.Sublist.eq_of_length hsuffix (by simp only [List.length_cons]; omega)
      have hpos : ∀ op ∈ x, 0 < op.get_length := by
        intro op hop
        rw [← hxeq] at hop
        rcases List.mem_cons.1 hop with rfl | hop
        · have hm0 : ¬m = 0 := by
            simpa [zeroMX, CigarOp.isMX, CigarOp.get_length] using hhd
          simp only [CigarOp.get_length]
          omega
        · have := List.filter_eq_self.1 hfilter op hop
          simpa [posLen] using this
      refine ⟨?_, hpos, Or.inr ⟨.Match m, rest, hxeq.symm, rfl⟩⟩
      show (CigarOp.Match m :: rest.filter posLen, (0 : Nat), (0 : Nat)) = (x, 0, 0)
      rw [hfilter, hxeq]
    | Mismatch m =>
      simp only [List.length_cons] at hlen
      have hfeq : (rest.filter posLen).length = rest.length := by omega
      have hfilter : rest.filter posLen = rest :=
        List.Sublist.eq_of_length (List.filter_sublist rest) hfeq
      have hxeq : CigarOp.Mismatch m :: rest = x :=
        List.Sublist.eq_of_length hsuffix (by simp only [List.length_cons]; omega)
      have hpos : ∀ op ∈ x, 0 < op.get_length := by
        intro op hop
        rw [← hxeq] at hop
        rcases List.mem_cons.1 hop with rfl | hop
        · have hm0 : ¬m = 0 := by
            simpa [zeroMX, CigarOp.isMX, CigarOp.get_length] using hhd
          simp only [CigarOp.get_length]
          omega
        · have := List.filter_eq_self.1 hfilter op hop
          simpa [posLen] using this
      refine ⟨?_, hpos, Or.inr ⟨.Mismatch m, rest, hxeq.symm, rfl⟩⟩
      show (CigarOp.Mismatch m :: rest.filter posLen, (0 : Nat), (0 : Nat)) = (x, 0, 0)
      rw [hfilter, hxeq]

/-- The retain pass keeps any all-positive CIGAR starting with
Match/Mismatch unchanged. -/
theorem retain_id_of_pos_headMX (x : List CigarOp)
    (hpos : ∀ op ∈ x, 0 < op.get_length)
    (hhead : x = [] ∨ ∃ hd tl, x = hd :: tl ∧ hd.isMX = true) :
    retainGo true 0 0 x = (x, 0, 0) := by
  rw [retain_char]
  rcases hhead with rfl | ⟨hd0, tl, rfl, hMX⟩
  · rfl
  · have hz : zeroMX hd0 = false := by
      have hp := hpos hd0 (by simp)
      simp only [zeroMX, hMX, Bool.true_and]
      simp only [beq_eq_false_iff_ne, ne_eq]
      omega
    have hdrop : (hd0 :: tl).dropWhile zeroMX = hd0 :: tl :=
      List.dropWhile_cons_of_neg (by simp [hz])
    rw [hdrop]
    have hfilter : tl.filter posLen = tl := by
      refine List.filter_eq_self.2 ?_
      intro a ha
      simp only [posLen, decide_eq_true_eq]
      exact hpos a (by simp [ha])
    cases hd0 with
    | Match m =>
      show (CigarOp.Match m :: tl.filter posLen, (0 : Nat), (0 : Nat)) = _
      rw [hfilter]
    | Mismatch m =>
      show (CigarOp.Mismatch m :: tl.filter posLen, (0 : Nat), (0 : Nat)) = _
      rw [hfilter]
    | Insertion m => simp [CigarOp.isMX] at hMX
    | Deletion m => simp [CigarOp.isMX] at hMX

/-- C2 amended: fix_cigar is idempotent on every input with no two adjacent
ops of the same kind on which the first application removes nothing — its
output has as many ops as the input (so nothing was stripped, dropped or
merged).  The second application then returns the same CIGAR with shifts
(0, 0). -/
theorem fix_cigar_idempotent_of_no_removal (cigar : List CigarOp)
    (target query : List Nat)
    (hchain : cigar.Chain' fun a b => a.tag ≠ b.tag)
    (hconsistent : tExtent cigar = target.length ∧ qExtent cigar = query.length)
    (hlen : (fix_cigar cigar target query).1.length = cigar.length) :
    fix_cigar (fix_cigar cigar target query).1 target query =
      fix_cigar cigar target query := by
  have hOchain : (pass1 cigar target query).Chain' fun a b => a.tag ≠ b.tag := by
    have h1 : (cigar.map CigarOp.tag).Chain' Ne := (List.chain'_map CigarOp.tag).2 hchain
    rw [← pass1_tags cigar target query] at h1
    exact (List.chain'_map CigarOp.tag).1 h1
  have hOlen := pass1_length cigar target query
  have hRle := retain_len_le (pass1 cigar target query)
  have hCle := coalesce_length_le (retainGo true 0 0 (pass1 cigar target query)).1
  have hfix1eq : (fix_cigar cigar target query).1 =
      coalesce (retainGo true 0 0 (pass1 cigar target query)).1 := rfl
  rw [hfix1eq] at hlen
  have hRlen : (retainGo true 0 0 (pass1 cigar target query)).1.length =
      (pass1 cigar target query).length := by omega
  obtain ⟨hRid, hOpos, hOhead⟩ := retain_id_of_len _ hRlen
  have hcoalO : coalesce (pass1 cigar target query) = pass1 cigar target query :=
    coalesce_of_chain _ hOchain
  have hfix1 : fix_cigar cigar target query = (pass1 cigar target query, 0, 0) := by
    show (coalesce (retainGo true 0 0 (pass1 cigar target query)).1,
      (retainGo true 0 0 (pass1 cigar target query)).2) = _
    rw [hRid]
    simpa using hcoalO
  have hO2 : pass1 (pass1 cigar target query) target query =
      pass1 cigar target query := by
    cases hc : cigar with
    | nil => rfl
    | cons c0 crest =>
      subst hc
      have heq : pass1Go target query (none : Option CigarOp).toList 0 0 c0 crest =
          (none : Option CigarOp).toList ++ pass1 (c0 :: crest) target query := by
        rw [optToList_none, List.nil_append]
        rfl
      have hposO : ∀ op ∈ pass1Go target query
          (none : Option CigarOp).toList 0 0 c0 crest, 0 < op.get_length := by
        intro op hop
        apply hOpos
        rw [heq] at hop
        simpa using hop
      have hA := pass1Go_shiftFree target query crest.length crest none 0 0 c0
        (le_refl _) (stepNoShift_none target query 0 0 c0 crest) hposO
        (pass1 (c0 :: crest) target query) heq
      cases hO : pass1 (c0 :: crest) target query with
      | nil => rfl
      | cons o0 orest =>
        rw [hO] at hA
        have hB := pass1Go_of_noShiftWalk target query orest [] 0 0 o0 hA
        show pass1Go target query [] 0 0 o0 orest = o0 :: orest
        rw [hB]
        simp
  have hRid2 : retainGo true 0 0 (pass1 (pass1 cigar target query) target query) =
      (pass1 cigar target query, 0, 0) := by
    rw [hO2]
    exact retain_id_of_pos_headMX _ hOpos hOhead
  have hfix2 : fix_cigar (pass1 cigar target query) target query =
      (pass1 cigar target query, 0, 0) := by
    show (coalesce (retainGo true 0 0 (pass1 (pass1 cigar target query) target query)).1,
      (retainGo true 0 0 (pass1 (pass1 cigar target query) target query)).2) = _
    rw [hRid2]
    simpa using hcoalO
  rw [hfix1]
  exact hfix2

/-- Witness for the amended C2 at the CIGAR [Match 1] over one-base
sequences. -/
theorem fix_cigar_idempotent_of_no_removal_witness :
    (([CigarOp.Match 1] : List CigarOp).Chain' fun a b => a.tag ≠ b.tag) ∧
    (tExtent [CigarOp.Match 1] = ([65] : List Nat).length ∧
      qExtent [CigarOp.Match 1] = ([65] : List Nat).length) ∧
    (fix_cigar [CigarOp.Match 1] [65] [65]).1.length =
      ([CigarOp.Match 1] : List CigarOp).length ∧
    fix_cigar (fix_cigar [CigarOp.Match 1] [65] [65]).1 [65] [65] =
      fix_cigar [CigarOp.Match 1] [65] [65] :=
  ⟨List.chain'_singleton _, ⟨by decide, by decide⟩, by decide,
    fix_cigar_idempotent_of_no_removal [CigarOp.Match 1] [65] [65]
      (List.chain'_singleton _) ⟨by decide, by decide⟩ (by decide)⟩

end Herro
